import Mathlib

/-!
Verification of create_cpg_matrix: CIGAR walk, panel lookup and likelihood matrix.

A shallow embedding of `create_cpg_matrix.c` and the properties of its CIGAR-driven
coordinate mapping.

Modelling conventions.

* The global arrays are modelled by total functions on indices together with the
  capacities `MAX_READS` and `MAX_CPG` of the source; an access outside an array
  (a row at or beyond `MAX_READS`, a column at or beyond `MAX_CPG`, a read name that
  does not fit `char[100]`, a byte beyond the data reachable from the `ML` pointer, a
  target id without a name) has no defined behaviour in C and makes the embedded
  function return `none`.
* The `int` counters `ref_pos`, `read_pos`, `op_len` and `i` are modelled by unbounded
  `Int`/`Nat`: BAM coordinates and CIGAR lengths stay far below `2^31`, and signed
  overflow would again be undefined behaviour.
* `cpg_sites[0 .. cpg_count)` is modelled by a list, `cpg_count` being its length.
* The panel file is modelled by its characters, and the call of `fscanf` with the format
  of line 31 by a function on the characters left to read, after the C standard: a scanset
  of at most 99 characters, the literal colon, the conversion `%d`, trailing white space.
-/

namespace CreateCpgMatrix

/-! ## Data model (lines 7-22) -/

/-- The capacity `MAX_CPG` of the panel, 1000 in the source. -/
def MAX_CPG : Nat := 1000

/-- The capacity `MAX_READS` of the row list, 1000 in the source. -/
def MAX_READS : Nat := 1000

/-- The struct `CpGSite` of the source: `char chrom[100]; int pos;`. -/
structure CpGSite where
  chrom : String
  pos : Int
deriving DecidableEq, Repr

/-- The matrix `int likelihood_matrix[MAX_READS][MAX_CPG]`, rows = reads, columns = sites. -/
abbrev Matrix := Nat → Nat → Int

/-- The global variables of the program. -/
structure State where
  /-- The loaded sites `cpg_sites[0 .. cpg_count)` -/
  cpg_sites : List CpGSite
  /-- The array `likelihood_matrix` -/
  likelihood_matrix : Matrix
  /-- The array `read_names` -/
  read_names : Nat → String
  /-- The counter `read_count` -/
  read_count : Nat

/-- The counter `cpg_count` -/
def State.cpg_count (st : State) : Nat := st.cpg_sites.length

/-- The globals at program start: zero-initialised arrays, no site loaded, no read. -/
def State.init : State :=
  { cpg_sites := [], likelihood_matrix := fun _ _ => 0, read_names := fun _ => "", read_count := 0 }

/-! ## The part of htslib the program uses (`htslib/sam.h`) -/

/-- CIGAR operator code `BAM_CMATCH` -/
def BAM_CMATCH : Nat := 0
/-- CIGAR operator code `BAM_CINS` -/
def BAM_CINS : Nat := 1
/-- CIGAR operator code `BAM_CDEL` -/
def BAM_CDEL : Nat := 2
/-- CIGAR operator code `BAM_CREF_SKIP` -/
def BAM_CREF_SKIP : Nat := 3
/-- CIGAR operator code `BAM_CSOFT_CLIP` -/
def BAM_CSOFT_CLIP : Nat := 4
/-- CIGAR operator code `BAM_CHARD_CLIP` -/
def BAM_CHARD_CLIP : Nat := 5
/-- CIGAR operator code `BAM_CPAD` -/
def BAM_CPAD : Nat := 6
/-- CIGAR operator code `BAM_CEQUAL` -/
def BAM_CEQUAL : Nat := 7
/-- CIGAR operator code `BAM_CDIFF` -/
def BAM_CDIFF : Nat := 8
/-- CIGAR operator code `BAM_CBACK` -/
def BAM_CBACK : Nat := 9

/-- The macro `bam_cigar_op(c)`, that is `((c) & BAM_CIGAR_MASK)` with `BAM_CIGAR_MASK = 0xf`. -/
def bam_cigar_op (c : Nat) : Nat := c &&& 0xf

/-- The macro `bam_cigar_oplen(c)`, that is `((c) >> BAM_CIGAR_SHIFT)` with
`BAM_CIGAR_SHIFT = 4`. -/
def bam_cigar_oplen (c : Nat) : Nat := c >>> 4

/-- The macro `bam_cigar_gen(l, o)`, that is `((l) << BAM_CIGAR_SHIFT | (o))`: the CIGAR
word of the operation `(o, l)`. -/
def bam_cigar_gen (l o : Nat) : Nat := l <<< 4 ||| o

/-- The fields of an alignment record `bam1_t` that `extract_methylation` reads. -/
structure bam1_t where
  /-- The read name `bam_get_qname(aln)` -/
  qname : String
  /-- The target id `aln->core.tid` -/
  tid : Nat
  /-- The alignment start `aln->core.pos` -/
  pos : Int
  /-- The CIGAR words `bam_get_cigar(aln)`, `aln->core.n_cigar` of them -/
  cigar : List Nat
  /-- The result of `bam_aux_get(aln, "MM")`: `none` for a NULL result, else the bytes after the type
  character -/
  mm : Option (List Nat)
  /-- The result of `bam_aux_get(aln, "ML")`: `none` for a NULL result, else the bytes that can be read
  from the pointer once it has skipped the type character -/
  ml : Option (List Nat)

/-- The field of the header `bam_hdr_t` that `extract_methylation` reads. -/
structure bam_hdr_t where
  /-- The names `header->target_name` -/
  target_name : List String

/-! ## `find_cpg_index` (lines 39-46) -/

/-- The loop of `find_cpg_index`, entered at index `i` with the sites from `i` on. -/
def find_cpg_index_loop (chrom : String) (pos : Int) : List CpGSite → Nat → Int
  | [], _ => -1
  | site :: rest, i =>
    if site.chrom = chrom ∧ site.pos = pos then (i : Int)
    else find_cpg_index_loop chrom pos rest (i + 1)

/-- The function `int find_cpg_index(const char *chrom, int pos)` over the panel
`cpg_sites`. -/
def find_cpg_index (cpg_sites : List CpGSite) (chrom : String) (pos : Int) : Int :=
  find_cpg_index_loop chrom pos cpg_sites 0

/-! ## `extract_methylation` (lines 49-112) -/

/-- The loop variables of the CIGAR walk, with the part `acc` of the program state that
the body of the per-base loop works on. -/
structure Walk (σ : Type) where
  ref_pos : Int
  read_pos : Nat
  acc : σ

/-- Lines 75-83: the per-base loop of a MATCH/EQUAL/DIFF operation of length `op_len`;
`body ref_pos read_pos` stands for lines 77-80. -/
def match_loop {σ : Type} (body : Int → Nat → σ → σ) : Nat → Walk σ → Walk σ
  | 0, w => w
  | op_len + 1, w =>
    match_loop body op_len
      { ref_pos := w.ref_pos + 1, read_pos := w.read_pos + 1,
        acc := body w.ref_pos w.read_pos w.acc }

/-- Lines 68-108: one iteration of the loop over the CIGAR words, the `switch` on the
operator. -/
def cigar_step {σ : Type} (body : Int → Nat → σ → σ) (w : Walk σ) (c : Nat) : Walk σ :=
  let op_len := bam_cigar_oplen c
  let op := bam_cigar_op c
  if op = BAM_CMATCH ∨ op = BAM_CEQUAL ∨ op = BAM_CDIFF then match_loop body op_len w
  else if op = BAM_CINS then { w with read_pos := w.read_pos + op_len }
  else if op = BAM_CDEL then { w with ref_pos := w.ref_pos + op_len }
  else if op = BAM_CSOFT_CLIP then { w with read_pos := w.read_pos + op_len }
  else if op = BAM_CHARD_CLIP then w
  else if op = BAM_CREF_SKIP then { w with ref_pos := w.ref_pos + op_len }
  else w

/-- Lines 67-109: the loop `for (k = 0; k < n_cigar; k++)`. -/
def cigar_loop {σ : Type} (body : Int → Nat → σ → σ) (w : Walk σ) (cigar : List Nat) : Walk σ :=
  cigar.foldl (cigar_step body) w

/-- The sequence of pairs `(ref_pos, read_pos)` at which the CIGAR loop reaches line 77,
the call of `find_cpg_index`: the loop run with a body that only records the pair. -/
def tested_pairs (alignment_start : Int) (cigar : List Nat) : List (Int × Nat) :=
  (cigar_loop (fun ref_pos read_pos log => log ++ [(ref_pos, read_pos)])
    { ref_pos := alignment_start, read_pos := 0, acc := [] } cigar).acc

/-- The assignment `likelihood_matrix[row][col] = v`. -/
def Matrix.set (m : Matrix) (row col : Nat) (v : Int) : Matrix :=
  fun i j => if i = row ∧ j = col then v else m i j

/-- Lines 77-80: look the reference position up in the panel and, on a hit, store
`ml[read_pos]` in the row of the read. The matrix is `none` once an access has left an
array. -/
def test_site (cpg_sites : List CpGSite) (chrom : Option String) (ml : List Nat) (row : Nat)
    (ref_pos : Int) (read_pos : Nat) (matrix : Option Matrix) : Option Matrix :=
  match matrix, chrom with
  | some m, some name =>
    let cpg_index := find_cpg_index cpg_sites name ref_pos
    if 0 ≤ cpg_index then
      match ml[read_pos]? with
      | some v =>
        if row < MAX_READS ∧ cpg_index.toNat < MAX_CPG then
          some (m.set row cpg_index.toNat (v : Int))
        else none
      | none => none
    else some m
  | _, _ => none

/-- The function `void extract_methylation(bam1_t *aln, bam_hdr_t *header)` as a function
on the globals; `none` when an access leaves an array. -/
def extract_methylation (st : State) (aln : bam1_t) (header : bam_hdr_t) : Option State :=
  if st.read_count < MAX_READS ∧ aln.qname.utf8ByteSize < 100 then
    let st1 : State :=
      { st with read_names := fun i => if i = st.read_count then aln.qname else st.read_names i }
    match aln.mm, aln.ml with
    | some _, some ml =>
      let w := cigar_loop
        (test_site st1.cpg_sites header.target_name[aln.tid]? ml st1.read_count)
        { ref_pos := aln.pos, read_pos := 0, acc := some st1.likelihood_matrix } aln.cigar
      match w.acc with
      | some m => some { st1 with likelihood_matrix := m, read_count := st1.read_count + 1 }
      | none => none
    | _, _ => some st1
  else none


/-- The read offsets at which the CIGAR loop reaches line 79 and reads `ml[read_pos]`: the
loop run with a body that records `read_pos` when `find_cpg_index` finds the position. -/
def ml_reads (cpg_sites : List CpGSite) (chrom : String) (alignment_start : Int)
    (cigar : List Nat) : List Nat :=
  (cigar_loop
    (fun ref_pos read_pos log =>
      if 0 ≤ find_cpg_index cpg_sites chrom ref_pos then log ++ [read_pos] else log)
    { ref_pos := alignment_start, read_pos := 0, acc := [] } cigar).acc

/-! ## `load_cpg_sites` (lines 25-36) -/

/-- The C library test `isspace` in the C locale: space, `\t`, `\n`, `\v`, `\f`, `\r`. -/
def isspace (ch : Char) : Bool :=
  ch.toNat = 32 || (9 ≤ ch.toNat && ch.toNat ≤ 13)

/-- The C library test `isdigit`. -/
def isdigit (ch : Char) : Bool := 48 ≤ ch.toNat && ch.toNat ≤ 57

/-- The number that a run of decimal digits denotes. -/
def decimal_value (digits : List Char) : Nat :=
  digits.foldl (fun acc d => 10 * acc + (d.toNat - 48)) 0

/-- The run of digits at the head of the input, as the conversion `%d` takes it: `none`
when there is no digit (a matching failure), else the value and the input after the run. -/
def scan_digits (input : List Char) : Option (Nat × List Char) :=
  if input.takeWhile isdigit = [] then none
  else some (decimal_value (input.takeWhile isdigit), input.dropWhile isdigit)

/-- The conversion `%d` of `fscanf`: white space is skipped, then an optional sign and the
longest run of decimal digits are read; `none` stands for a matching or input failure. -/
def scan_int (input : List Char) : Option (Int × List Char) :=
  match input.dropWhile isspace with
  | [] => none
  | ch :: rest =>
    if ch = '-' then (scan_digits rest).map fun r => (-(r.1 : Int), r.2)
    else if ch = '+' then (scan_digits rest).map fun r => ((r.1 : Int), r.2)
    else (scan_digits (ch :: rest)).map fun r => ((r.1 : Int), r.2)

/-- The outcome of one call `fscanf(file, "%99[^:]:%d\n", chrom, &pos)`. -/
inductive ScanResult where
  /-- The call returns 2: both items are stored and `rest` is the input left. -/
  | assigned (chrom : List Char) (pos : Int) (rest : List Char)
  /-- The call returns EOF, 0 or 1; `stored` tells whether it has written `chrom`. -/
  | failed (stored : Bool)

/-- One call `fscanf(file, "%99[^:]:%d\n", ...)` on the input left in the file: up to 99
characters other than `:` (at least one), the character `:`, an integer, and then any
white space. -/
def fscanf_site (input : List Char) : ScanResult :=
  let chrom := (input.takeWhile fun ch => ch != ':').take 99
  if chrom = [] then ScanResult.failed false
  else
    match input.drop chrom.length with
    | [] => ScanResult.failed true
    | ch :: after_colon =>
      if ch = ':' then
        match scan_int after_colon with
        | some (pos, rest) => ScanResult.assigned chrom pos (rest.dropWhile isspace)
        | none => ScanResult.failed true
      else ScanResult.failed true

/-- The outcome of `load_cpg_sites`. -/
inductive LoadResult where
  /-- The file could not be opened: the message and `exit(1)`. -/
  | exit_failure
  /-- The function returns, with these globals. -/
  | loaded (st : State)
  /-- A write beyond `cpg_sites[MAX_CPG - 1]`, or an integer that `int` cannot hold: no
  defined behaviour. -/
  | undefined
  /-- The bound on the number of iterations given to `load_loop` was too small. -/
  | out_of_fuel

/-- The panel that `load_cpg_sites` leaves, when it returns. -/
def LoadResult.panel : LoadResult → Option (List CpGSite)
  | LoadResult.loaded st => some st.cpg_sites
  | _ => none

/-- The call ended the program with `exit(1)`. -/
def LoadResult.is_exit : LoadResult → Bool
  | LoadResult.exit_failure => true
  | _ => false

/-- Lines 31-33: the loop `while (fscanf(...) == 2) cpg_count++`, at most `fuel`
iterations. -/
def load_loop : Nat → List Char → State → LoadResult
  | 0, _, _ => LoadResult.out_of_fuel
  | fuel + 1, input, st =>
    match fscanf_site input with
    | ScanResult.failed stored =>
      if stored = true ∧ MAX_CPG ≤ st.cpg_count then LoadResult.undefined
      else LoadResult.loaded st
    | ScanResult.assigned chrom pos rest =>
      if st.cpg_count < MAX_CPG ∧ -2147483648 ≤ pos ∧ pos ≤ 2147483647 then
        load_loop fuel rest
          { st with cpg_sites := st.cpg_sites ++ [{ chrom := String.mk chrom, pos := pos }] }
      else LoadResult.undefined

/-- The function `void load_cpg_sites(const char *filename)` on the globals; `file` is
`none` when `fopen` returns NULL and else the content of the file. Every iteration of the
loop consumes input, so the length of the content bounds their number. -/
def load_cpg_sites (file : Option (List Char)) (st : State) : LoadResult :=
  match file with
  | none => LoadResult.exit_failure
  | some text => load_loop (text.length + 1) text st

/-- A line `chromosome:position` of a panel source: the characters of the chromosome and
the decimal digits of the position. -/
structure PanelLine where
  chrom : List Char
  digits : List Char

/-- The text of a line in the file: `chromosome:position` and a newline. -/
def PanelLine.text (line : PanelLine) : List Char :=
  line.chrom ++ ':' :: (line.digits ++ [Char.ofNat 10])

/-- The site a line denotes. -/
def PanelLine.site (line : PanelLine) : CpGSite :=
  { chrom := String.mk line.chrom, pos := (decimal_value line.digits : Int) }

/-- The line has the shape `chromosome:position`: a chromosome of 1 to 99 characters, none
of them `:` or white space, and a position of at least one decimal digit that fits `int`. -/
def PanelLine.well_formed (line : PanelLine) : Bool :=
  line.chrom != [] && decide (line.chrom.length ≤ 99) &&
    line.chrom.all (fun ch => ch != ':' && !isspace ch) &&
    line.digits != [] && line.digits.all isdigit &&
    decide (decimal_value line.digits ≤ 2147483647)

/-- The text of a sequence of lines. -/
def panel_text (lines : List PanelLine) : List Char :=
  lines.flatMap PanelLine.text

/-- A panel source whose second line has a position that is not a number. -/
def example_bad_position : List Char := "chr1:100\nchr2:abc\nchr3:5\n".toList

/-- A panel source whose second line has no colon. -/
def example_no_colon : List Char := "chr1:100\nchr2 200\nchr3:5\n".toList

/-- The well-formed first line `chr1:100` of `example_bad_position`. -/
def example_lines : List PanelLine := [{ chrom := "chr1".toList, digits := "100".toList }]

/-! ## The scan of `main` (lines 142-157) -/

/-- Lines 152-154: `extract_methylation` is called on every read that the iterator of one
region yields, in order. -/
def scan_region (header : bam_hdr_t) (st : Option State) (reads : List bam1_t) : Option State :=
  reads.foldl (fun acc aln => acc.bind fun st' => extract_methylation st' aln header) st

/-- Lines 142-157: the loop over the panel sites. `query chrom beg end` stands for the
iterator that `sam_itr_querys` returns for the region string `chrom:beg-end`: `none` for a
NULL iterator, else the reads it yields. -/
def scan_sites (query : String → Int → Int → Option (List bam1_t)) (header : bam_hdr_t)
    (st : State) : Option State :=
  st.cpg_sites.foldl
    (fun acc site =>
      match query site.chrom site.pos site.pos with
      | none => acc
      | some reads => scan_region header acc reads)
    (some st)

/-! ## Concrete inputs -/

/-- A panel of two sites on `chr1`. -/
def example_panel : List CpGSite := [{ chrom := "chr1", pos := 101 }, { chrom := "chr1", pos := 103 }]

/-- The globals after loading `example_panel`, before any read. -/
def example_state : State := { State.init with cpg_sites := example_panel }

/-- A header with the single target `chr1`. -/
def example_header : bam_hdr_t := { target_name := ["chr1"] }

/-- The bytes of an `ML` field, one per read base. -/
def example_ml : List Nat := [10, 20, 30, 40, 50]

/-- A read with both tags that starts at 100 on `chr1` with CIGAR `5M`; it covers both
sites of `example_panel`. -/
def example_read : bam1_t :=
  { qname := "read1", tid := 0, pos := 100, cigar := [bam_cigar_gen 5 BAM_CMATCH],
    mm := some [], ml := some example_ml }

/-- The read `example_read` without the `ML` tag. -/
def example_untagged_read : bam1_t := { example_read with ml := none }

/-- A region query that yields `example_read` for every region on `chr1` that meets the
span 100 .. 105 of the read. -/
def example_query (chrom : String) (start stop : Int) : Option (List bam1_t) :=
  if chrom = "chr1" ∧ start ≤ 105 ∧ 100 ≤ stop then some [example_read] else some []

/-! ## The walk as the claims describe it -/

/-- The operators that line up a read base with a reference base: MATCH, EQUAL, DIFF. -/
def is_aligned_op (c : Nat) : Bool :=
  bam_cigar_op c = BAM_CMATCH || bam_cigar_op c = BAM_CEQUAL || bam_cigar_op c = BAM_CDIFF

/-- The operators that consume reference: MATCH, EQUAL, DIFF, DELETION, REFERENCE_SKIP. -/
def consumes_reference (c : Nat) : Bool :=
  is_aligned_op c || bam_cigar_op c = BAM_CDEL || bam_cigar_op c = BAM_CREF_SKIP

/-- The operators that consume read bases: MATCH, EQUAL, DIFF, INSERTION, SOFT_CLIP. -/
def consumes_read (c : Nat) : Bool :=
  is_aligned_op c || bam_cigar_op c = BAM_CINS || bam_cigar_op c = BAM_CSOFT_CLIP

/-- The sum of the lengths of the operations of `cigar` that consume reference. -/
def reference_consumed (cigar : List Nat) : Nat :=
  ((cigar.filter consumes_reference).map bam_cigar_oplen).sum

/-- The sum of the lengths of the operations of `cigar` that consume read bases. -/
def read_consumed (cigar : List Nat) : Nat :=
  ((cigar.filter consumes_read).map bam_cigar_oplen).sum

/-- The run of `n` pairs `(p + i, q + i)`, `i = 0 .. n - 1`. -/
def aligned_run (p : Int) (q n : Nat) : List (Int × Nat) :=
  (List.range n).map fun (i : Nat) => (p + (i : Int), q + i)

/-- The pairs the claim lists for alignment start `s`: for each operation `k` that is
MATCH, EQUAL or DIFF, of length `L`, the pairs `(s + R + i, Q + i)`, `i < L`, with `R` and
`Q` the reference and read lengths consumed by the operations before `k`. -/
def claimed_pairs (s : Int) (cigar : List Nat) : List (Int × Nat) :=
  (List.range cigar.length).flatMap fun k =>
    if is_aligned_op (cigar.getD k 0) then
      aligned_run (s + (reference_consumed (cigar.take k) : Int)) (read_consumed (cigar.take k))
        (bam_cigar_oplen (cigar.getD k 0))
    else []

/-- The pairs of the walk from counters `p`, `q`, by recursion on the CIGAR: an auxiliary
description, shown equal to what the loop visits in `cigar_loop_eq`. -/
def walk_pairs (p : Int) (q : Nat) : List Nat → List (Int × Nat)
  | [] => []
  | c :: cs =>
    (if is_aligned_op c then aligned_run p q (bam_cigar_oplen c) else []) ++
      walk_pairs (p + ((if consumes_reference c then bam_cigar_oplen c else 0 : Nat) : Int))
        (q + (if consumes_read c then bam_cigar_oplen c else 0)) cs

/-- The operators outside the eight cases of the `switch`: the `default` branch. -/
def unrecognized_op (c : Nat) : Bool :=
  !(bam_cigar_op c == BAM_CMATCH || bam_cigar_op c == BAM_CEQUAL || bam_cigar_op c == BAM_CDIFF ||
    bam_cigar_op c == BAM_CINS || bam_cigar_op c == BAM_CDEL ||
    bam_cigar_op c == BAM_CSOFT_CLIP || bam_cigar_op c == BAM_CHARD_CLIP ||
    bam_cigar_op c == BAM_CREF_SKIP)

/-- The CIGAR with every HARD_CLIP operation removed. -/
def without_hard_clips (cigar : List Nat) : List Nat :=
  cigar.filter fun c => bam_cigar_op c != BAM_CHARD_CLIP

/-- The columns of the cells that the CIGAR loop writes at line 79, in order: the loop
run with a body that records `cpg_index` when `find_cpg_index` finds the position. -/
def columns_written (cpg_sites : List CpGSite) (chrom : String) (alignment_start : Int)
    (cigar : List Nat) : List Nat :=
  (cigar_loop
    (fun ref_pos _ log =>
      if 0 ≤ find_cpg_index cpg_sites chrom ref_pos then
        log ++ [(find_cpg_index cpg_sites chrom ref_pos).toNat]
      else log)
    { ref_pos := alignment_start, read_pos := 0, acc := [] } cigar).acc

/-- A panel that lists the site `chr1:101` twice, at columns 0 and 2. -/
def example_duplicate_panel : List CpGSite :=
  [{ chrom := "chr1", pos := 101 }, { chrom := "chr1", pos := 103 }, { chrom := "chr1", pos := 101 }]

/-- The globals after the call of `extract_methylation` on `example_read` from
`example_state`. -/
def example_state_after : State :=
  match extract_methylation example_state example_read example_header with
  | some st' => st'
  | none => example_state

/-- The site that `example_duplicate_panel` lists twice. -/
def example_duplicate_site : CpGSite := { chrom := "chr1", pos := 101 }

/-- The globals after loading `example_duplicate_panel`, before any read. -/
def example_duplicate_state : State := { State.init with cpg_sites := example_duplicate_panel }

/-- The position `p` lies in the reference span of a DELETION or REFERENCE_SKIP operation
of the CIGAR of a read that starts at `s`: for some operation `k` of that kind, of length
`L`, with `R` the reference length consumed before it, `s + R ≤ p < s + R + L`. -/
def in_skipped_span (s : Int) (cigar : List Nat) (p : Int) : Prop :=
  ∃ k : Nat, k < cigar.length ∧
    (bam_cigar_op (cigar.getD k 0) = BAM_CDEL ∨ bam_cigar_op (cigar.getD k 0) = BAM_CREF_SKIP) ∧
    s + (reference_consumed (cigar.take k) : Int) ≤ p ∧
    p < s + (reference_consumed (cigar.take k) : Int) + (bam_cigar_oplen (cigar.getD k 0) : Int)

/-- The position `p` lies outside the aligned reference span of a read that starts at
`s`: before `s`, or at or after `s` plus the reference length the CIGAR consumes. -/
def outside_reference_span (s : Int) (cigar : List Nat) (p : Int) : Prop :=
  p < s ∨ s + (reference_consumed cigar : Int) ≤ p

/-- A read with both tags that starts at 100 on `chr1` with CIGAR `2M3D2M`: the site
`chr1:103` of `example_panel` lies in its deletion. -/
def example_deletion_read : bam1_t :=
  { qname := "read2", tid := 0, pos := 100,
    cigar := [bam_cigar_gen 2 BAM_CMATCH, bam_cigar_gen 3 BAM_CDEL, bam_cigar_gen 2 BAM_CMATCH],
    mm := some [], ml := some example_ml }

/-- The read carries both modification tags: neither `bam_aux_get` returns NULL. -/
def has_calls (aln : bam1_t) : Bool := aln.mm.isSome && aln.ml.isSome

/-- The accesses of a call that depend on the read alone stay inside their arrays: the
name fits `char[100]` and, for a read with both tags, the target id has a name and every
hit of the walk reads inside `ml`. -/
def accesses_in_range (cpg_sites : List CpGSite) (header : bam_hdr_t) (aln : bam1_t) : Bool :=
  decide (aln.qname.utf8ByteSize < 100) &&
    match aln.mm, aln.ml with
    | some _, some ml =>
      match header.target_name[aln.tid]? with
      | some c =>
        (tested_pairs aln.pos aln.cigar).all fun x =>
          decide (0 ≤ find_cpg_index cpg_sites c x.1 → x.2 < ml.length)
      | none => false
    | _, _ => true

/-- The number of reads with both tags among the first `k` reads of a sequence: the
value of `read_count` when read `k` is handed to `extract_methylation`, counted from the
start of the sequence. -/
def rows_before (reads : List bam1_t) (k : Nat) : Nat :=
  ((reads.take k).filter has_calls).length

/-- The reads handed to `extract_methylation` by the scan of `main`, in scan order: for
each panel site in turn, the reads its region query yields. -/
def scan_order (query : String → Int → Int → Option (List bam1_t)) (cpg_sites : List CpGSite) :
    List bam1_t :=
  cpg_sites.flatMap fun site => (query site.chrom site.pos site.pos).getD []

/-- A sequence of three reads: `example_read`, a read without `ML`, and `example_read`
again. -/
def example_reads : List bam1_t := [example_read, example_untagged_read, example_read]

/-- One more read than `read_names` has rows: 1001 copies of `example_read`. -/
def example_too_many_reads : List bam1_t := List.replicate (MAX_READS + 1) example_read

/-- One more line than `cpg_sites` has entries: 1001 copies of the line `chr1:100`. -/
def example_too_many_lines : List PanelLine :=
  List.replicate (MAX_CPG + 1) { chrom := "chr1".toList, digits := "100".toList }

/-- The 0-based reference coordinate of the base that the region string
`chrom:pos-pos` of line 144 names, the string being read as a 1-based inclusive
interval. -/
def queried_base (site : CpGSite) : Int := site.pos - 1

/-- The globals after loading the single site `chr1:101`, before any read. -/
def example_single_site_state : State :=
  { State.init with cpg_sites := [{ chrom := "chr1", pos := 101 }] }

/-- A read with both tags that starts at the 0-based position 100 on `chr1` with CIGAR
`2M`: its two bases lie on the 0-based positions 100 and 101. -/
def example_two_base_read : bam1_t :=
  { qname := "read3", tid := 0, pos := 100, cigar := [bam_cigar_gen 2 BAM_CMATCH],
    mm := some [], ml := some [10, 20] }

/-- A read with both tags that starts at the 0-based position 100 on `chr1` with CIGAR
`1M`: its only base lies on the 0-based position 100. -/
def example_one_base_read : bam1_t :=
  { qname := "read4", tid := 0, pos := 100, cigar := [bam_cigar_gen 1 BAM_CMATCH],
    mm := some [], ml := some [10] }

/-! ## Lemmas on the CIGAR macros -/

theorem bam_cigar_op_eq_mod (c : Nat) : bam_cigar_op c = c % 16 := by
  have h := Nat.and_pow_two_sub_one_eq_mod c 4
  simpa [bam_cigar_op] using h

theorem bam_cigar_oplen_eq_div (c : Nat) : bam_cigar_oplen c = c / 16 := by
  simp [bam_cigar_oplen, Nat.shiftRight_eq_div_pow]

theorem bam_cigar_gen_eq (l o : Nat) (h : o < 16) : bam_cigar_gen l o = 16 * l + o := by
  have h2 : 2 ^ 4 * l + o = 2 ^ 4 * l ||| o := Nat.mul_add_lt_is_or (by simpa using h) l
  simp only [bam_cigar_gen, Nat.shiftLeft_eq]
  rw [Nat.mul_comm l (2 ^ 4), ← h2]
  norm_num

theorem bam_cigar_op_gen (l o : Nat) (h : o < 16) : bam_cigar_op (bam_cigar_gen l o) = o := by
  rw [bam_cigar_op_eq_mod, bam_cigar_gen_eq l o h]; omega

theorem bam_cigar_oplen_gen (l o : Nat) (h : o < 16) :
    bam_cigar_oplen (bam_cigar_gen l o) = l := by
  rw [bam_cigar_oplen_eq_div, bam_cigar_gen_eq l o h]; omega

/-! ## Lemmas on the walk -/

theorem aligned_run_zero (p : Int) (q : Nat) : aligned_run p q 0 = [] := rfl

theorem aligned_run_succ (p : Int) (q n : Nat) :
    aligned_run p q (n + 1) = (p, q) :: aligned_run (p + 1) (q + 1) n := by
  simp only [aligned_run, List.range_succ_eq_map, List.map_cons, List.map_map]
  refine congrArg₂ _ (by simp) (List.map_congr_left fun i _ => ?_)
  simp only [Function.comp, Nat.succ_eq_add_one]
  refine Prod.ext ?_ ?_
  · push_cast; omega
  · show q + (i + 1) = q + 1 + i; omega

/-- The per-base loop visits the run of pairs starting at its counters, in order. -/
theorem match_loop_eq {σ : Type} (body : Int → Nat → σ → σ) (n : Nat) (w : Walk σ) :
    match_loop body n w =
      { ref_pos := w.ref_pos + (n : Int), read_pos := w.read_pos + n,
        acc := (aligned_run w.ref_pos w.read_pos n).foldl (fun a x => body x.1 x.2 a) w.acc } := by
  induction n generalizing w with
  | zero => simp [match_loop, aligned_run_zero]
  | succ n ih =>
    rw [match_loop, ih, aligned_run_succ]
    simp only [List.foldl_cons, Nat.cast_add, Nat.cast_one]
    congr 1 <;> omega

/-- One CIGAR word: the counters advance by the consumed lengths and the body runs over
the aligned run of the word, if it has one. -/
theorem cigar_step_eq {σ : Type} (body : Int → Nat → σ → σ) (w : Walk σ) (c : Nat) :
    cigar_step body w c =
      { ref_pos := w.ref_pos + ((if consumes_reference c then bam_cigar_oplen c else 0 : Nat) : Int),
        read_pos := w.read_pos + (if consumes_read c then bam_cigar_oplen c else 0),
        acc := (if is_aligned_op c then aligned_run w.ref_pos w.read_pos (bam_cigar_oplen c)
                else []).foldl (fun a x => body x.1 x.2 a) w.acc } := by
  have hop : bam_cigar_op c < 16 := by rw [bam_cigar_op_eq_mod]; omega
  simp only [cigar_step, consumes_reference, consumes_read, is_aligned_op, BAM_CMATCH,
    BAM_CEQUAL, BAM_CDIFF, BAM_CINS, BAM_CDEL, BAM_CSOFT_CLIP, BAM_CHARD_CLIP, BAM_CREF_SKIP,
    Bool.or_eq_true, decide_eq_true_eq]
  by_cases h0 : bam_cigar_op c = 0
  · simp [h0, match_loop_eq]
  by_cases h7 : bam_cigar_op c = 7
  · simp [h7, match_loop_eq]
  by_cases h8 : bam_cigar_op c = 8
  · simp [h8, match_loop_eq]
  by_cases h1 : bam_cigar_op c = 1
  · simp [h1]
  by_cases h2 : bam_cigar_op c = 2
  · simp [h2]
  by_cases h4 : bam_cigar_op c = 4
  · simp [h4]
  by_cases h5 : bam_cigar_op c = 5
  · simp [h5]
  by_cases h3 : bam_cigar_op c = 3
  · simp [h3]
  simp [h0, h1, h2, h3, h4, h5, h7, h8]

/-- The whole loop: the counters advance by the consumed lengths and the body runs over
`walk_pairs`, in order. -/
theorem cigar_loop_eq {σ : Type} (body : Int → Nat → σ → σ) (cigar : List Nat) (w : Walk σ) :
    cigar_loop body w cigar =
      { ref_pos := w.ref_pos + (reference_consumed cigar : Int),
        read_pos := w.read_pos + read_consumed cigar,
        acc := (walk_pairs w.ref_pos w.read_pos cigar).foldl (fun a x => body x.1 x.2 a) w.acc } := by
  induction cigar generalizing w with
  | nil => simp [cigar_loop, reference_consumed, read_consumed, walk_pairs]
  | cons c cs ih =>
    have hstep : cigar_loop body w (c :: cs) = cigar_loop body (cigar_step body w c) cs := rfl
    rw [hstep, ih, cigar_step_eq]
    simp only [walk_pairs, List.foldl_append, reference_consumed, read_consumed, List.filter_cons]
    congr 1
    · by_cases h : consumes_reference c = true
      · simp [h]; omega
      · simp [h]
    · by_cases h : consumes_read c = true
      · simp [h]; omega
      · simp [h]

theorem foldl_log (l acc : List (Int × Nat)) :
    l.foldl (fun (a : List (Int × Nat)) x => a ++ [(x.1, x.2)]) acc = acc ++ l := by
  induction l generalizing acc with
  | nil => simp
  | cons x xs ih => simp [ih]

/-- The recorded pairs are the pairs of `walk_pairs`. -/
theorem tested_pairs_eq_walk_pairs (s : Int) (cigar : List Nat) :
    tested_pairs s cigar = walk_pairs s 0 cigar := by
  simp only [tested_pairs, cigar_loop_eq]
  simpa using foldl_log (walk_pairs s 0 cigar) []

theorem reference_consumed_cons (c : Nat) (cs : List Nat) :
    reference_consumed (c :: cs) =
      (if consumes_reference c then bam_cigar_oplen c else 0) + reference_consumed cs := by
  by_cases h : consumes_reference c = true <;> simp [reference_consumed, List.filter_cons, h]

theorem read_consumed_cons (c : Nat) (cs : List Nat) :
    read_consumed (c :: cs) =
      (if consumes_read c then bam_cigar_oplen c else 0) + read_consumed cs := by
  by_cases h : consumes_read c = true <;> simp [read_consumed, List.filter_cons, h]

/-- The walk over a concatenation: the second part starts where the first one stops. -/
theorem walk_pairs_append (p : Int) (q : Nat) (l₁ l₂ : List Nat) :
    walk_pairs p q (l₁ ++ l₂) =
      walk_pairs p q l₁ ++
        walk_pairs (p + (reference_consumed l₁ : Int)) (q + read_consumed l₁) l₂ := by
  induction l₁ generalizing p q with
  | nil => simp [walk_pairs, reference_consumed, read_consumed]
  | cons c cs ih =>
    have hcons : walk_pairs p q (c :: cs ++ l₂) =
        (if is_aligned_op c then aligned_run p q (bam_cigar_oplen c) else []) ++
          walk_pairs (p + ((if consumes_reference c then bam_cigar_oplen c else 0 : Nat) : Int))
            (q + (if consumes_read c then bam_cigar_oplen c else 0)) (cs ++ l₂) := rfl
    rw [hcons, ih]
    simp only [walk_pairs, List.append_assoc, reference_consumed_cons,
      read_consumed_cons, Nat.cast_add, Int.add_assoc, Nat.add_assoc]

theorem claimed_pairs_concat (s : Int) (cs : List Nat) (c : Nat) :
    claimed_pairs s (cs ++ [c]) =
      claimed_pairs s cs ++
        (if is_aligned_op c then
          aligned_run (s + (reference_consumed cs : Int)) (read_consumed cs) (bam_cigar_oplen c)
         else []) := by
  simp only [claimed_pairs, List.length_append, List.length_singleton, List.range_succ,
    List.flatMap_append, List.flatMap_singleton]
  congr 1
  · refine List.flatMap_congr fun k hk => ?_
    have hk' : k < cs.length := List.mem_range.mp hk
    rw [List.getD_append _ _ _ _ hk', List.take_append_of_le_length (Nat.le_of_lt hk')]
  · have hget : (cs ++ [c]).getD cs.length 0 = c := by simp [List.getD_eq_getElem?_getD]
    rw [hget, List.take_left]

theorem walk_pairs_eq_claimed_pairs (s : Int) (cigar : List Nat) :
    walk_pairs s 0 cigar = claimed_pairs s cigar := by
  induction cigar using List.reverseRecOn with
  | nil => simp [walk_pairs, claimed_pairs]
  | append_singleton cs c ih =>
    rw [walk_pairs_append, claimed_pairs_concat, ih]
    simp [walk_pairs]

/-! ## C1 : the pairs tested by the CIGAR loop -/

/-- C1. For every alignment start `s` and every CIGAR list, the pairs
`(ref_pos, read_pos)` that the CIGAR loop of `extract_methylation` tests against the panel
are, in order, exactly the pairs `(s + R + i, Q + i)`, `i < L`, of each MATCH/EQUAL/DIFF
operation of length `L`, where `R` and `Q` are the reference and read lengths consumed by
the earlier operations; no other operation contributes a pair. -/
theorem tested_pairs_eq_claimed_pairs (s : Int) (cigar : List Nat) :
    tested_pairs s cigar = claimed_pairs s cigar := by
  rw [tested_pairs_eq_walk_pairs, walk_pairs_eq_claimed_pairs]

/-! ## C4 : exact lookup -/

/-- The loop of `find_cpg_index` returns `-1` when no remaining site matches, and else
the index of the first remaining site that matches. -/
theorem find_cpg_index_loop_spec (chrom : String) (pos : Int) (sites : List CpGSite) (i : Nat) :
    (find_cpg_index_loop chrom pos sites i = -1 ∧
        ∀ site ∈ sites, ¬ (site.chrom = chrom ∧ site.pos = pos)) ∨
      ∃ (k : Nat) (site : CpGSite), sites[k]? = some site ∧
        (site.chrom = chrom ∧ site.pos = pos) ∧
        find_cpg_index_loop chrom pos sites i = ((i + k : Nat) : Int) ∧
        ∀ (k' : Nat) (site' : CpGSite), k' < k → sites[k']? = some site' →
          ¬ (site'.chrom = chrom ∧ site'.pos = pos) := by
  induction sites generalizing i with
  | nil => left; simp [find_cpg_index_loop]
  | cons site rest ih =>
    by_cases h : site.chrom = chrom ∧ site.pos = pos
    · right
      refine ⟨0, site, by simp, h, by simp [find_cpg_index_loop, h], ?_⟩
      intro k' site' hk'
      omega
    · rcases ih (i + 1) with ⟨h1, h2⟩ | ⟨k, s, hk, hs, hres, hmin⟩
      · left
        refine ⟨by simp [find_cpg_index_loop, h, h1], ?_⟩
        intro s hs
        rcases List.mem_cons.mp hs with rfl | hs
        · exact h
        · exact h2 s hs
      · right
        refine ⟨k + 1, s, by simpa using hk, hs, ?_, ?_⟩
        · simp only [find_cpg_index_loop, h, if_false, hres]
          congr 1
          omega
        · intro k' site' hk' hget
          cases k' with
          | zero =>
            simp only [List.getElem?_cons_zero, Option.some.injEq] at hget
            subst hget
            exact h
          | succ k'' =>
            simp only [List.getElem?_cons_succ] at hget
            exact hmin k'' site' (by omega) hget

/-- The result of `find_cpg_index` is `-1` or the least index of a site equal to
`(chrom, pos)`. -/
theorem find_cpg_index_spec (cpg_sites : List CpGSite) (chrom : String) (pos : Int) :
    (find_cpg_index cpg_sites chrom pos = -1 ∧
        ∀ site ∈ cpg_sites, ¬ (site.chrom = chrom ∧ site.pos = pos)) ∨
      ∃ (k : Nat) (site : CpGSite), cpg_sites[k]? = some site ∧
        (site.chrom = chrom ∧ site.pos = pos) ∧
        find_cpg_index cpg_sites chrom pos = (k : Int) ∧
        ∀ (k' : Nat) (site' : CpGSite), k' < k → cpg_sites[k']? = some site' →
          ¬ (site'.chrom = chrom ∧ site'.pos = pos) := by
  rcases find_cpg_index_loop_spec chrom pos cpg_sites 0 with h | ⟨k, s, hk, hs, hres, hmin⟩
  · left; exact h
  · right
    refine ⟨k, s, hk, hs, ?_, hmin⟩
    rw [find_cpg_index, hres]
    simp

/-- C4. For every panel, chromosome `c` and position `p`: the result of
`find_cpg_index` is `-1` or an index in `0 .. cpg_count - 1`; it is an index `i` in that
range only if panel site `i` has chromosome `c` and position `p`, so it is never the
index of a site that differs from `(c, p)` in chromosome or position; and it is `-1` if
and only if no panel site equals `(c, p)` exactly, so that a position next to a site, or
the position of a site on another chromosome, gives `-1` unless it is itself a site. -/
theorem find_cpg_index_exact (cpg_sites : List CpGSite) (c : String) (p : Int) :
    (find_cpg_index cpg_sites c p = -1 ∨
      (0 ≤ find_cpg_index cpg_sites c p ∧
        find_cpg_index cpg_sites c p < (cpg_sites.length : Int))) ∧
    (∀ i : Nat, find_cpg_index cpg_sites c p = (i : Int) → i < cpg_sites.length →
      ∃ site, cpg_sites[i]? = some site ∧ site.chrom = c ∧ site.pos = p) ∧
    (∀ (i : Nat) (site : CpGSite), cpg_sites[i]? = some site →
      (site.chrom ≠ c ∨ site.pos ≠ p) → find_cpg_index cpg_sites c p ≠ (i : Int)) ∧
    (find_cpg_index cpg_sites c p = -1 ↔
      ∀ site ∈ cpg_sites, ¬ (site.chrom = c ∧ site.pos = p)) := by
  rcases find_cpg_index_spec cpg_sites c p with ⟨h1, h2⟩ | ⟨k, s, hk, hs, hres, _⟩
  · refine ⟨Or.inl h1, ?_, ?_, ⟨fun _ => h2, fun _ => h1⟩⟩
    · intro i hi
      rw [h1] at hi
      omega
    · intro i site _ _ hi
      rw [h1] at hi
      omega
  · have hklt : k < cpg_sites.length := by
      rcases List.getElem?_eq_some_iff.mp hk with ⟨hlt, _⟩
      exact hlt
    refine ⟨Or.inr ⟨by rw [hres]; omega, by rw [hres]; exact_mod_cast hklt⟩, ?_, ?_, ?_⟩
    · intro i hi _
      rw [hres] at hi
      have hik : k = i := by exact_mod_cast hi
      subst hik
      exact ⟨s, hk, hs.1, hs.2⟩
    · intro i site hsite hne hi
      rw [hres] at hi
      have hik : k = i := by exact_mod_cast hi
      subst hik
      rw [hk] at hsite
      cases hsite
      rcases hne with hne | hne
      · exact hne hs.1
      · exact hne hs.2
    · constructor
      · intro h
        rw [hres] at h
        omega
      · intro h
        exact absurd hs (h s (List.getElem?_mem hk))

/-! ## C7 - C10 : the walk on the CIGARs of the testable properties -/

/-- C7, the example as the claim gives it: for `s = 100` and the CIGAR
`[(MATCH,2), (INSERTION,3), (MATCH,2)]` the walk does not emit
`(100,0), (101,1), (102,4), (103,5)`. -/
theorem tested_pairs_match_ins_match_example_fails :
    tested_pairs 100 [bam_cigar_gen 2 BAM_CMATCH, bam_cigar_gen 3 BAM_CINS,
        bam_cigar_gen 2 BAM_CMATCH] ≠ [(100, 0), (101, 1), (102, 4), (103, 5)] := by
  decide

/-- C7, amended. For every alignment start `s` and lengths `a`, `b`, `c`, the CIGAR
`[(MATCH,a), (INSERTION,b), (MATCH,c)]` makes the walk emit `(s+i, i)` for `i < a` followed
by `(s+a+j, a+b+j)` for `j < c`: reference positions stay contiguous and the read offsets
skip the `b` inserted bases; for `s = 100` and lengths 2, 3, 2 the pairs are
`(100,0), (101,1), (102,5), (103,6)`. -/
theorem tested_pairs_match_ins_match :
    (∀ (s : Int) (a b c : Nat),
      tested_pairs s [bam_cigar_gen a BAM_CMATCH, bam_cigar_gen b BAM_CINS,
          bam_cigar_gen c BAM_CMATCH] =
        (List.range a).map (fun (i : Nat) => (s + (i : Int), i)) ++
          (List.range c).map (fun (j : Nat) => (s + (a : Int) + (j : Int), a + b + j))) ∧
    tested_pairs 100 [bam_cigar_gen 2 BAM_CMATCH, bam_cigar_gen 3 BAM_CINS,
        bam_cigar_gen 2 BAM_CMATCH] = [(100, 0), (101, 1), (102, 5), (103, 6)] := by
  refine ⟨fun s a b c => ?_, by decide⟩
  rw [tested_pairs_eq_walk_pairs]
  simp [walk_pairs, is_aligned_op, consumes_reference, consumes_read, bam_cigar_op_gen,
    bam_cigar_oplen_gen, BAM_CMATCH, BAM_CEQUAL, BAM_CDIFF,
    BAM_CINS, BAM_CDEL, BAM_CREF_SKIP, BAM_CSOFT_CLIP, aligned_run]

/-- C8. For every alignment start `s` and lengths `a`, `b`, `c`, the CIGAR
`[(MATCH,a), (DELETION,b), (MATCH,c)]`, and likewise with REFERENCE_SKIP in place of
DELETION, makes the walk emit `(s+i, i)` for `i < a` followed by `(s+a+b+j, a+j)` for
`j < c`; for `s = 100` and lengths 2, 3, 2 the pairs are
`(100,0), (101,1), (105,2), (106,3)`. -/
theorem tested_pairs_match_del_match :
    (∀ (s : Int) (a b c : Nat),
      tested_pairs s [bam_cigar_gen a BAM_CMATCH, bam_cigar_gen b BAM_CDEL,
          bam_cigar_gen c BAM_CMATCH] =
        (List.range a).map (fun (i : Nat) => (s + (i : Int), i)) ++
          (List.range c).map (fun (j : Nat) => (s + (a : Int) + (b : Int) + (j : Int), a + j))) ∧
    (∀ (s : Int) (a b c : Nat),
      tested_pairs s [bam_cigar_gen a BAM_CMATCH, bam_cigar_gen b BAM_CREF_SKIP,
          bam_cigar_gen c BAM_CMATCH] =
        (List.range a).map (fun (i : Nat) => (s + (i : Int), i)) ++
          (List.range c).map (fun (j : Nat) => (s + (a : Int) + (b : Int) + (j : Int), a + j))) ∧
    tested_pairs 100 [bam_cigar_gen 2 BAM_CMATCH, bam_cigar_gen 3 BAM_CDEL,
        bam_cigar_gen 2 BAM_CMATCH] = [(100, 0), (101, 1), (105, 2), (106, 3)] := by
  refine ⟨fun s a b c => ?_, fun s a b c => ?_, by decide⟩
  · rw [tested_pairs_eq_walk_pairs]
    simp [walk_pairs, is_aligned_op, consumes_reference, consumes_read, bam_cigar_op_gen,
      bam_cigar_oplen_gen, BAM_CMATCH, BAM_CEQUAL, BAM_CDIFF,
    BAM_CINS, BAM_CDEL, BAM_CREF_SKIP, BAM_CSOFT_CLIP, aligned_run]
  · rw [tested_pairs_eq_walk_pairs]
    simp [walk_pairs, is_aligned_op, consumes_reference, consumes_read, bam_cigar_op_gen,
      bam_cigar_oplen_gen, BAM_CMATCH, BAM_CEQUAL, BAM_CDIFF,
    BAM_CINS, BAM_CDEL, BAM_CREF_SKIP, BAM_CSOFT_CLIP, aligned_run]

/-- C9. For every alignment start `s` and lengths `k`, `m`, the CIGAR
`[(SOFT_CLIP,k), (MATCH,m)]` makes the walk emit exactly `(s+i, k+i)` for `i < m`; for
`s = 50` and lengths 3, 2 the pairs are `(50,3), (51,4)`. -/
theorem tested_pairs_soft_clip_match :
    (∀ (s : Int) (k m : Nat),
      tested_pairs s [bam_cigar_gen k BAM_CSOFT_CLIP, bam_cigar_gen m BAM_CMATCH] =
        (List.range m).map (fun (i : Nat) => (s + (i : Int), k + i))) ∧
    tested_pairs 50 [bam_cigar_gen 3 BAM_CSOFT_CLIP, bam_cigar_gen 2 BAM_CMATCH] =
      [(50, 3), (51, 4)] := by
  refine ⟨fun s k m => ?_, by decide⟩
  rw [tested_pairs_eq_walk_pairs]
  simp [walk_pairs, is_aligned_op, consumes_reference, consumes_read, bam_cigar_op_gen,
    bam_cigar_oplen_gen, BAM_CMATCH, BAM_CEQUAL, BAM_CDIFF,
    BAM_CINS, BAM_CDEL, BAM_CREF_SKIP, BAM_CSOFT_CLIP, aligned_run]

/-- C10. For every alignment start `s` and length `L`, each of the single-operation
CIGARs `[(MATCH,L)]`, `[(EQUAL,L)]` and `[(DIFF,L)]` makes the walk emit exactly the `L`
pairs `(s+i, i)`, `i = 0 .. L-1`, in increasing order, one per base; for `s = 100` and
`[(MATCH,5)]` the pairs are `(100,0), (101,1), (102,2), (103,3), (104,4)`. -/
theorem tested_pairs_single_aligned :
    (∀ (s : Int) (L : Nat), tested_pairs s [bam_cigar_gen L BAM_CMATCH] =
        (List.range L).map (fun (i : Nat) => (s + (i : Int), i))) ∧
    (∀ (s : Int) (L : Nat), tested_pairs s [bam_cigar_gen L BAM_CEQUAL] =
        (List.range L).map (fun (i : Nat) => (s + (i : Int), i))) ∧
    (∀ (s : Int) (L : Nat), tested_pairs s [bam_cigar_gen L BAM_CDIFF] =
        (List.range L).map (fun (i : Nat) => (s + (i : Int), i))) ∧
    tested_pairs 100 [bam_cigar_gen 5 BAM_CMATCH] =
      [(100, 0), (101, 1), (102, 2), (103, 3), (104, 4)] := by
  refine ⟨fun s L => ?_, fun s L => ?_, fun s L => ?_, by decide⟩ <;>
    rw [tested_pairs_eq_walk_pairs] <;>
    simp [walk_pairs, is_aligned_op, consumes_reference, consumes_read, bam_cigar_op_gen,
      bam_cigar_oplen_gen, BAM_CMATCH, BAM_CEQUAL, BAM_CDIFF, aligned_run]

/-! ## Order and range of the visited pairs -/

theorem mem_aligned_run (p : Int) (q n : Nat) (x : Int × Nat) :
    x ∈ aligned_run p q n ↔ ∃ i : Nat, i < n ∧ x = (p + (i : Int), q + i) := by
  simp only [aligned_run, List.mem_map, List.mem_range]
  constructor
  · rintro ⟨i, hi, rfl⟩; exact ⟨i, hi, rfl⟩
  · rintro ⟨i, hi, rfl⟩; exact ⟨i, hi, rfl⟩

theorem aligned_run_pairwise (p : Int) (q n : Nat) :
    (aligned_run p q n).Pairwise (fun x y => x.1 < y.1 ∧ x.2 < y.2) := by
  rw [aligned_run, List.pairwise_map]
  refine List.Pairwise.imp ?_ (List.pairwise_lt_range n)
  intro a b hab
  constructor
  · show p + (a : Int) < p + (b : Int)
    omega
  · show q + a < q + b
    omega

/-- Every pair of the walk lies between the counters at the start and the counters at
the end. -/
theorem walk_pairs_bounds (cigar : List Nat) (p : Int) (q : Nat) (x : Int × Nat)
    (hx : x ∈ walk_pairs p q cigar) :
    p ≤ x.1 ∧ x.1 < p + (reference_consumed cigar : Int) ∧
      q ≤ x.2 ∧ x.2 < q + read_consumed cigar := by
  induction cigar generalizing p q with
  | nil => simp [walk_pairs] at hx
  | cons c cs ih =>
    rw [reference_consumed_cons, read_consumed_cons]
    simp only [walk_pairs, List.mem_append] at hx
    rcases hx with hx | hx
    · by_cases ha : is_aligned_op c = true
      · have hr : consumes_reference c = true := by simp [consumes_reference, ha]
        have hq : consumes_read c = true := by simp [consumes_read, ha]
        simp only [ha, if_true] at hx
        rcases (mem_aligned_run _ _ _ _).mp hx with ⟨i, hi, rfl⟩
        simp only [hr, hq, if_true]
        push_cast
        refine ⟨?_, ?_, ?_, ?_⟩ <;> omega
      · simp [ha] at hx
    · have h := ih _ _ hx
      rw [Nat.cast_add]
      refine ⟨?_, ?_, ?_, ?_⟩ <;> omega

/-- The pairs of the walk are strictly increasing in both coordinates. -/
theorem walk_pairs_pairwise (cigar : List Nat) (p : Int) (q : Nat) :
    (walk_pairs p q cigar).Pairwise (fun x y => x.1 < y.1 ∧ x.2 < y.2) := by
  induction cigar generalizing p q with
  | nil => simp [walk_pairs]
  | cons c cs ih =>
    simp only [walk_pairs]
    rw [List.pairwise_append]
    refine ⟨?_, ih _ _, ?_⟩
    · by_cases ha : is_aligned_op c = true
      · simp only [ha, if_true]; exact aligned_run_pairwise _ _ _
      · simp [ha]
    · intro x hx y hy
      by_cases ha : is_aligned_op c = true
      · have hr : consumes_reference c = true := by simp [consumes_reference, ha]
        have hq : consumes_read c = true := by simp [consumes_read, ha]
        simp only [ha, if_true] at hx
        rcases (mem_aligned_run _ _ _ _).mp hx with ⟨i, hi, rfl⟩
        have h := walk_pairs_bounds cs _ _ y hy
        simp only [hr, hq, if_true] at h
        constructor
        · show p + (i : Int) < y.1
          omega
        · show q + i < y.2
          omega
      · simp [ha] at hx

/-! ## The stores of the loop body -/

/-- A result of `find_cpg_index` that is not negative is below `cpg_count`. -/
theorem find_cpg_index_lt (cpg_sites : List CpGSite) (chrom : String) (pos : Int)
    (h : 0 ≤ find_cpg_index cpg_sites chrom pos) :
    (find_cpg_index cpg_sites chrom pos).toNat < cpg_sites.length := by
  rcases find_cpg_index_spec cpg_sites chrom pos with ⟨h1, _⟩ | ⟨k, s, hk, _, hres, _⟩
  · omega
  · rcases List.getElem?_eq_some_iff.mp hk with ⟨hlt, _⟩
    rw [hres]
    simpa using hlt

/-- A column that `find_cpg_index` returns holds a site equal to the query. -/
theorem find_cpg_index_site (cpg_sites : List CpGSite) (chrom : String) (pos : Int) (j : Nat)
    (h : find_cpg_index cpg_sites chrom pos = (j : Int)) :
    ∃ site, cpg_sites[j]? = some site ∧ site.chrom = chrom ∧ site.pos = pos := by
  rcases find_cpg_index_spec cpg_sites chrom pos with ⟨h1, _⟩ | ⟨k, s, hk, hs, hres, _⟩
  · omega
  · have hkj : k = j := by omega
    subst hkj
    exact ⟨s, hk, hs.1, hs.2⟩

/-- Two positions that `find_cpg_index` maps to the same column are equal. -/
theorem find_cpg_index_inj (cpg_sites : List CpGSite) (chrom : String) (p p' : Int) (j : Nat)
    (h : find_cpg_index cpg_sites chrom p = (j : Int))
    (h' : find_cpg_index cpg_sites chrom p' = (j : Int)) : p = p' := by
  obtain ⟨s1, hs1, _, hp1⟩ := find_cpg_index_site cpg_sites chrom p j h
  obtain ⟨s2, hs2, _, hp2⟩ := find_cpg_index_site cpg_sites chrom p' j h'
  rw [hs1] at hs2
  cases hs2
  rw [← hp1, ← hp2]

/-- One run of lines 77-80 on a defined matrix: the result is defined when the offset is
inside `ml` on a hit; only the cell of the row of the read in the found column changes,
and it receives `ml[read_pos]`. -/
theorem test_site_some (cpg_sites : List CpGSite) (chrom : String) (ml : List Nat) (row : Nat)
    (ref_pos : Int) (read_pos : Nat) (m : Matrix)
    (hrow : row < MAX_READS) (hcap : cpg_sites.length ≤ MAX_CPG)
    (hrange : 0 ≤ find_cpg_index cpg_sites chrom ref_pos → read_pos < ml.length) :
    ∃ m', test_site cpg_sites (some chrom) ml row ref_pos read_pos (some m) = some m' ∧
      (∀ i j : Nat, i ≠ row → m' i j = m i j) ∧
      (∀ j : Nat, find_cpg_index cpg_sites chrom ref_pos ≠ (j : Int) → m' row j = m row j) ∧
      (∀ j : Nat, find_cpg_index cpg_sites chrom ref_pos = (j : Int) →
        ∃ v, ml[read_pos]? = some v ∧ m' row j = (v : Int)) := by
  by_cases hhit : 0 ≤ find_cpg_index cpg_sites chrom ref_pos
  · have hq := hrange hhit
    have hcol := find_cpg_index_lt cpg_sites chrom ref_pos hhit
    have hget : ml[read_pos]? = some ml[read_pos] := List.getElem?_eq_getElem hq
    refine ⟨m.set row (find_cpg_index cpg_sites chrom ref_pos).toNat (ml[read_pos] : Int),
      ?_, ?_, ?_, ?_⟩
    · simp only [test_site, hhit, if_true, hget]
      rw [if_pos ⟨hrow, by omega⟩]
    · intro i j hi
      simp [Matrix.set, hi]
    · intro j hj
      have : j ≠ (find_cpg_index cpg_sites chrom ref_pos).toNat := by omega
      simp [Matrix.set, this]
    · intro j hj
      refine ⟨ml[read_pos], hget, ?_⟩
      have : j = (find_cpg_index cpg_sites chrom ref_pos).toNat := by omega
      simp [Matrix.set, this]
  · refine ⟨m, by simp [test_site, hhit], fun _ _ _ => rfl, fun _ _ => rfl, ?_⟩
    intro j hj
    omega

/-- The body of the loop run over a list of pairs: the result is defined when every hit
reads inside `ml`; rows other than the row of the read keep their cells, a column that no
pair maps to keeps its cell, and a column receives the value read for the last pair that
maps to it. -/
theorem foldl_test_site (cpg_sites : List CpGSite) (chrom : String) (ml : List Nat) (row : Nat)
    (hrow : row < MAX_READS) (hcap : cpg_sites.length ≤ MAX_CPG)
    (l : List (Int × Nat)) (m : Matrix)
    (hrange : ∀ x ∈ l, 0 ≤ find_cpg_index cpg_sites chrom x.1 → x.2 < ml.length) :
    ∃ m', l.foldl (fun a x => test_site cpg_sites (some chrom) ml row x.1 x.2 a) (some m)
        = some m' ∧
      (∀ i j : Nat, i ≠ row → m' i j = m i j) ∧
      (∀ j : Nat, (∀ x ∈ l, find_cpg_index cpg_sites chrom x.1 ≠ (j : Int)) →
        m' row j = m row j) ∧
      (∀ (l₁ l₂ : List (Int × Nat)) (x : Int × Nat) (j : Nat), l = l₁ ++ x :: l₂ →
        find_cpg_index cpg_sites chrom x.1 = (j : Int) →
        (∀ y ∈ l₂, find_cpg_index cpg_sites chrom y.1 ≠ (j : Int)) →
        ∃ v, ml[x.2]? = some v ∧ m' row j = (v : Int)) := by
  induction l generalizing m with
  | nil =>
    refine ⟨m, rfl, fun _ _ _ => rfl, fun _ _ => rfl, ?_⟩
    intro l₁ l₂ x j h
    simp at h
  | cons x xs ih =>
    obtain ⟨m1, hm1, hframe1, hmiss1, hhit1⟩ :=
      test_site_some cpg_sites chrom ml row x.1 x.2 m hrow hcap
        (hrange x (List.mem_cons_self _ _))
    obtain ⟨m', hm', hframe, hmiss, hhit⟩ :=
      ih m1 (fun y hy => hrange y (List.mem_cons_of_mem _ hy))
    refine ⟨m', ?_, ?_, ?_, ?_⟩
    · rw [List.foldl_cons, hm1, hm']
    · intro i j hi
      rw [hframe i j hi, hframe1 i j hi]
    · intro j hj
      rw [hmiss j (fun y hy => hj y (List.mem_cons_of_mem _ hy)),
        hmiss1 j (hj x (List.mem_cons_self _ _))]
    · intro l₁ l₂ y j hl hy hl₂
      cases l₁ with
      | nil =>
        simp only [List.nil_append, List.cons.injEq] at hl
        obtain ⟨rfl, rfl⟩ := hl
        obtain ⟨v, hv, hcell⟩ := hhit1 j hy
        exact ⟨v, hv, by rw [hmiss j hl₂, hcell]⟩
      | cons z zs =>
        simp only [List.cons_append, List.cons.injEq] at hl
        exact hhit zs l₂ y j hl.2 hy hl₂

/-! ## The effect of one call of `extract_methylation` -/

/-- One call on a read with both tags, when no access leaves an array: the call returns,
the panel is unchanged, `read_count` grows by one, the name of the read is stored at the
old `read_count`, rows other than that one keep their cells, and in that row a column
receives `ml[q]` when the walk tests a pair `(p, q)` that the panel maps to it and keeps
its cell otherwise. -/
theorem extract_methylation_tagged (st : State) (aln : bam1_t) (header : bam_hdr_t)
    (mm ml : List Nat) (c : String)
    (hmm : aln.mm = some mm) (hml : aln.ml = some ml)
    (hchrom : header.target_name[aln.tid]? = some c)
    (hrow : st.read_count < MAX_READS) (hname : aln.qname.utf8ByteSize < 100)
    (hcap : st.cpg_sites.length ≤ MAX_CPG)
    (hrange : ∀ x ∈ tested_pairs aln.pos aln.cigar,
      0 ≤ find_cpg_index st.cpg_sites c x.1 → x.2 < ml.length) :
    ∃ st', extract_methylation st aln header = some st' ∧
      st'.cpg_sites = st.cpg_sites ∧
      st'.read_count = st.read_count + 1 ∧
      (∀ i : Nat, st'.read_names i = if i = st.read_count then aln.qname else st.read_names i) ∧
      (∀ i j : Nat, i ≠ st.read_count → st'.likelihood_matrix i j = st.likelihood_matrix i j) ∧
      (∀ j : Nat,
        (∀ x ∈ tested_pairs aln.pos aln.cigar, find_cpg_index st.cpg_sites c x.1 ≠ (j : Int)) →
        st'.likelihood_matrix st.read_count j = st.likelihood_matrix st.read_count j) ∧
      (∀ x ∈ tested_pairs aln.pos aln.cigar, ∀ j : Nat,
        find_cpg_index st.cpg_sites c x.1 = (j : Int) →
        ∃ v, ml[x.2]? = some v ∧ st'.likelihood_matrix st.read_count j = (v : Int)) := by
  rw [tested_pairs_eq_walk_pairs] at hrange
  obtain ⟨m', hm', hframe, hmiss, hhit⟩ :=
    foldl_test_site st.cpg_sites c ml st.read_count hrow hcap
      (walk_pairs aln.pos 0 aln.cigar) st.likelihood_matrix hrange
  refine ⟨{ cpg_sites := st.cpg_sites, likelihood_matrix := m',
            read_names := fun i => if i = st.read_count then aln.qname else st.read_names i,
            read_count := st.read_count + 1 }, ?_, rfl, rfl, fun _ => rfl, hframe, ?_, ?_⟩
  · simp only [extract_methylation, hmm, hml, hchrom, cigar_loop_eq]
    rw [if_pos ⟨hrow, hname⟩, hm']
  · intro j hj
    rw [tested_pairs_eq_walk_pairs] at hj
    exact hmiss j hj
  · intro x hx j hj
    rw [tested_pairs_eq_walk_pairs] at hx
    obtain ⟨l₁, l₂, hl⟩ := List.append_of_mem hx
    refine hhit l₁ l₂ x j hl hj ?_
    intro y hy hyj
    have hpw := walk_pairs_pairwise aln.cigar aln.pos 0
    rw [hl, List.pairwise_append] at hpw
    have hlt := (List.pairwise_cons.mp hpw.2.1).1 y hy
    have := find_cpg_index_inj st.cpg_sites c x.1 y.1 j hj hyj
    omega

/-- One call on a read that lacks a tag, when the name fits its row: the call returns and
changes nothing but the name stored at `read_count`. -/
theorem extract_methylation_untagged (st : State) (aln : bam1_t) (header : bam_hdr_t)
    (htag : aln.mm = none ∨ aln.ml = none)
    (hrow : st.read_count < MAX_READS) (hname : aln.qname.utf8ByteSize < 100) :
    extract_methylation st aln header =
      some { st with
        read_names := fun i => if i = st.read_count then aln.qname else st.read_names i } := by
  unfold extract_methylation
  rw [if_pos ⟨hrow, hname⟩]
  rcases htag with h | h
  · rw [h]
  · rw [h]
    cases aln.mm <;> rfl

/-! ## C2 : the cells written for a read -/

/-- C2. For every read that carries both tags, with chromosome `c`, alignment start
`aln.pos` and row index `r = read_count` before the call, when no access leaves an array
(a free row, a name that fits, a panel within `MAX_CPG`, every hit offset inside `ml`):
`extract_methylation` returns, and for every column `j`, if the walk emits a pair `(p, q)`
with `find_cpg_index(c, p) = j` then `likelihood_matrix[r][j]` equals `ml[q]`, and if no
emitted pair maps to `j` the cell keeps the value it had before the call. -/
theorem extract_methylation_cells (st : State) (aln : bam1_t) (header : bam_hdr_t)
    (mm ml : List Nat) (c : String)
    (hmm : aln.mm = some mm) (hml : aln.ml = some ml)
    (hchrom : header.target_name[aln.tid]? = some c)
    (hrow : st.read_count < MAX_READS) (hname : aln.qname.utf8ByteSize < 100)
    (hcap : st.cpg_sites.length ≤ MAX_CPG)
    (hrange : ∀ x ∈ tested_pairs aln.pos aln.cigar,
      0 ≤ find_cpg_index st.cpg_sites c x.1 → x.2 < ml.length) :
    ∃ st', extract_methylation st aln header = some st' ∧
      ∀ j : Nat,
        (∀ x ∈ tested_pairs aln.pos aln.cigar, find_cpg_index st.cpg_sites c x.1 = (j : Int) →
          ∃ v, ml[x.2]? = some v ∧ st'.likelihood_matrix st.read_count j = (v : Int)) ∧
        ((∀ x ∈ tested_pairs aln.pos aln.cigar,
            find_cpg_index st.cpg_sites c x.1 ≠ (j : Int)) →
          st'.likelihood_matrix st.read_count j = st.likelihood_matrix st.read_count j) := by
  obtain ⟨st', hst', _, _, _, _, hmiss, hhit⟩ :=
    extract_methylation_tagged st aln header mm ml c hmm hml hchrom hrow hname hcap hrange
  exact ⟨st', hst', fun j => ⟨fun x hx hj => hhit x hx j hj, hmiss j⟩⟩

/-- C2 at `example_read` on `example_state`: the hypotheses hold and the cells of row 0
are as stated. -/
theorem extract_methylation_cells_witness :
    (example_read.mm = some [] ∧ example_read.ml = some example_ml ∧
      example_header.target_name[example_read.tid]? = some "chr1" ∧
      example_state.read_count < MAX_READS ∧ example_read.qname.utf8ByteSize < 100 ∧
      example_state.cpg_sites.length ≤ MAX_CPG ∧
      ∀ x ∈ tested_pairs example_read.pos example_read.cigar,
        0 ≤ find_cpg_index example_state.cpg_sites "chr1" x.1 →
          x.2 < example_ml.length) ∧
    ∃ st', extract_methylation example_state example_read example_header = some st' ∧
      ∀ j : Nat,
        (∀ x ∈ tested_pairs example_read.pos example_read.cigar,
          find_cpg_index example_state.cpg_sites "chr1" x.1 = (j : Int) →
          ∃ v, example_ml[x.2]? = some v ∧
            st'.likelihood_matrix example_state.read_count j = (v : Int)) ∧
        ((∀ x ∈ tested_pairs example_read.pos example_read.cigar,
            find_cpg_index example_state.cpg_sites "chr1" x.1 ≠ (j : Int)) →
          st'.likelihood_matrix example_state.read_count j =
            example_state.likelihood_matrix example_state.read_count j) :=
  ⟨⟨rfl, rfl, rfl, by decide, by decide, by decide, by decide⟩,
    extract_methylation_cells example_state example_read example_header [] example_ml
      "chr1" rfl rfl rfl (by decide) (by decide) (by decide) (by decide)⟩

/-! ## C5 : a read without modification calls -/

/-- C5. For every read that lacks the MM tag or lacks the ML tag, when the row at
`read_count` exists and the name fits it, `extract_methylation` returns with every entry of
`likelihood_matrix` and the value of `read_count` the same as before the call, whatever
the CIGAR and position of the read. -/
theorem extract_methylation_missing_tag (st : State) (aln : bam1_t) (header : bam_hdr_t)
    (htag : aln.mm = none ∨ aln.ml = none)
    (hrow : st.read_count < MAX_READS) (hname : aln.qname.utf8ByteSize < 100) :
    ∃ st', extract_methylation st aln header = some st' ∧
      (∀ i j : Nat, st'.likelihood_matrix i j = st.likelihood_matrix i j) ∧
      st'.read_count = st.read_count := by
  rw [extract_methylation_untagged st aln header htag hrow hname]
  exact ⟨_, rfl, fun _ _ => rfl, rfl⟩

/-- C5 at `example_untagged_read` on `example_state`. -/
theorem extract_methylation_missing_tag_witness :
    ((example_untagged_read.mm = none ∨ example_untagged_read.ml = none) ∧
      example_state.read_count < MAX_READS ∧ example_untagged_read.qname.utf8ByteSize < 100) ∧
    ∃ st', extract_methylation example_state example_untagged_read example_header = some st' ∧
      (∀ i j : Nat, st'.likelihood_matrix i j = example_state.likelihood_matrix i j) ∧
      st'.read_count = example_state.read_count :=
  ⟨⟨Or.inr rfl, by decide, by decide⟩,
    extract_methylation_missing_tag example_state example_untagged_read example_header
      (Or.inr rfl) (by decide) (by decide)⟩

/-! ## C6 : the offsets at which `ml` is read -/

theorem foldl_hit_log (cpg_sites : List CpGSite) (chrom : String) (l : List (Int × Nat))
    (acc : List Nat) :
    l.foldl (fun (a : List Nat) x =>
        if 0 ≤ find_cpg_index cpg_sites chrom x.1 then a ++ [x.2] else a) acc =
      acc ++ (l.filter fun x => decide (0 ≤ find_cpg_index cpg_sites chrom x.1)).map Prod.snd := by
  induction l generalizing acc with
  | nil => simp
  | cons x xs ih =>
    by_cases h : 0 ≤ find_cpg_index cpg_sites chrom x.1
    · simp [List.foldl_cons, List.filter_cons, h, ih]
    · simp [List.foldl_cons, List.filter_cons, h, ih]

/-- The offsets at which `ml` is read are the read offsets of the tested pairs that hit
the panel. -/
theorem ml_reads_eq (cpg_sites : List CpGSite) (chrom : String) (s : Int) (cigar : List Nat) :
    ml_reads cpg_sites chrom s cigar =
      ((tested_pairs s cigar).filter fun x =>
        decide (0 ≤ find_cpg_index cpg_sites chrom x.1)).map Prod.snd := by
  rw [tested_pairs_eq_walk_pairs]
  simp only [ml_reads, cigar_loop_eq]
  simpa using foldl_hit_log cpg_sites chrom (walk_pairs s 0 cigar) []

/-- C6. For every alignment start and every CIGAR list, every read offset `q` of a
tested pair, and so every offset `q` at which the walk reads the modification array,
satisfies `0 ≤ q < N` with `N` the sum of the lengths of the read-consuming operations; so
when the array has at least `N` entries, `ml[q]` is in range at every read, and the loop
of `extract_methylation` (on a row and a panel within their capacities) runs to its end
without leaving `ml`. -/
theorem ml_reads_in_range (s : Int) (cigar : List Nat) :
    (∀ x ∈ tested_pairs s cigar, 0 ≤ (x.2 : Int) ∧ x.2 < read_consumed cigar) ∧
    (∀ (cpg_sites : List CpGSite) (chrom : String), ∀ q ∈ ml_reads cpg_sites chrom s cigar,
      0 ≤ (q : Int) ∧ q < read_consumed cigar) ∧
    (∀ (cpg_sites : List CpGSite) (chrom : String) (ml : List Nat),
      read_consumed cigar ≤ ml.length →
      ∀ q ∈ ml_reads cpg_sites chrom s cigar, ∃ v, ml[q]? = some v) ∧
    (∀ (cpg_sites : List CpGSite) (chrom : String) (ml : List Nat) (row : Nat) (m : Matrix),
      read_consumed cigar ≤ ml.length → row < MAX_READS → cpg_sites.length ≤ MAX_CPG →
      ∃ m', (cigar_loop (test_site cpg_sites (some chrom) ml row)
        { ref_pos := s, read_pos := 0, acc := some m } cigar).acc = some m') := by
  have hpairs : ∀ x ∈ tested_pairs s cigar, x.2 < read_consumed cigar := by
    intro x hx
    rw [tested_pairs_eq_walk_pairs] at hx
    have := walk_pairs_bounds cigar s 0 x hx
    omega
  have hreads : ∀ (cpg_sites : List CpGSite) (chrom : String),
      ∀ q ∈ ml_reads cpg_sites chrom s cigar, q < read_consumed cigar := by
    intro cpg_sites chrom q hq
    rw [ml_reads_eq, List.mem_map] at hq
    obtain ⟨x, hx, rfl⟩ := hq
    exact hpairs x (List.mem_filter.mp hx).1
  refine ⟨fun x hx => ⟨Int.natCast_nonneg _, hpairs x hx⟩,
    fun cpg_sites chrom q hq => ⟨Int.natCast_nonneg _, hreads cpg_sites chrom q hq⟩, ?_, ?_⟩
  · intro cpg_sites chrom ml hlen q hq
    have hlt : q < ml.length := Nat.lt_of_lt_of_le (hreads cpg_sites chrom q hq) hlen
    exact ⟨ml[q], List.getElem?_eq_getElem hlt⟩
  · intro cpg_sites chrom ml row m hlen hrow hcap
    obtain ⟨m', hm', _⟩ := foldl_test_site cpg_sites chrom ml row hrow hcap
      (walk_pairs s 0 cigar) m (fun x hx _ => by
        have := hpairs x (by rw [tested_pairs_eq_walk_pairs]; exact hx)
        omega)
    exact ⟨m', by rw [cigar_loop_eq]; exact hm'⟩

/-! ## What a call leaves unchanged -/

theorem test_site_none (cpg_sites : List CpGSite) (chrom : Option String) (ml : List Nat)
    (row : Nat) (ref_pos : Int) (read_pos : Nat) :
    test_site cpg_sites chrom ml row ref_pos read_pos none = none := by
  cases chrom <;> rfl

theorem foldl_test_site_none (cpg_sites : List CpGSite) (chrom : Option String) (ml : List Nat)
    (row : Nat) (l : List (Int × Nat)) :
    l.foldl (fun a x => test_site cpg_sites chrom ml row x.1 x.2 a) none = none := by
  induction l with
  | nil => rfl
  | cons x xs ih => rw [List.foldl_cons, test_site_none, ih]

/-- A run of lines 77-80 that stays inside the arrays changes no row but the row of the
read. -/
theorem test_site_frame (cpg_sites : List CpGSite) (chrom : Option String) (ml : List Nat)
    (row : Nat) (ref_pos : Int) (read_pos : Nat) (m m' : Matrix)
    (h : test_site cpg_sites chrom ml row ref_pos read_pos (some m) = some m') :
    ∀ i j : Nat, i ≠ row → m' i j = m i j := by
  intro i j hi
  cases chrom with
  | none => simp [test_site] at h
  | some name =>
    simp only [test_site] at h
    by_cases hhit : 0 ≤ find_cpg_index cpg_sites name ref_pos
    · rw [if_pos hhit] at h
      cases hv : ml[read_pos]? with
      | none => rw [hv] at h; simp at h
      | some v =>
        rw [hv] at h
        by_cases hg : row < MAX_READS ∧ (find_cpg_index cpg_sites name ref_pos).toNat < MAX_CPG
        · simp only [if_pos hg, Option.some.injEq] at h
          rw [← h]
          simp [Matrix.set, hi]
        · simp [if_neg hg] at h
    · simp only [if_neg hhit, Option.some.injEq] at h
      rw [h]

theorem foldl_test_site_frame (cpg_sites : List CpGSite) (chrom : Option String)
    (ml : List Nat) (row : Nat) (l : List (Int × Nat)) (m m' : Matrix)
    (h : l.foldl (fun a x => test_site cpg_sites chrom ml row x.1 x.2 a) (some m) = some m') :
    ∀ i j : Nat, i ≠ row → m' i j = m i j := by
  induction l generalizing m with
  | nil =>
    simp only [List.foldl_nil, Option.some.injEq] at h
    intro i j _
    rw [h]
  | cons x xs ih =>
    rw [List.foldl_cons] at h
    cases h1 : test_site cpg_sites chrom ml row x.1 x.2 (some m) with
    | none => rw [h1, foldl_test_site_none] at h; simp at h
    | some m1 =>
      rw [h1] at h
      intro i j hi
      rw [ih m1 h i j hi, test_site_frame cpg_sites chrom ml row x.1 x.2 m m1 h1 i j hi]

/-- A call that returns leaves the panel as it is, moves `read_count` by at most one, and
changes neither a name nor a cell outside the row at the old `read_count`. -/
theorem extract_methylation_frame (st st' : State) (aln : bam1_t) (header : bam_hdr_t)
    (h : extract_methylation st aln header = some st') :
    st'.cpg_sites = st.cpg_sites ∧ st.read_count ≤ st'.read_count ∧
      st'.read_count ≤ st.read_count + 1 ∧
      ∀ i : Nat, i ≠ st.read_count →
        st'.read_names i = st.read_names i ∧
          ∀ j : Nat, st'.likelihood_matrix i j = st.likelihood_matrix i j := by
  unfold extract_methylation at h
  by_cases hg : st.read_count < MAX_READS ∧ aln.qname.utf8ByteSize < 100
  · rw [if_pos hg] at h
    cases hmm : aln.mm with
    | none =>
      rw [hmm] at h
      simp only [Option.some.injEq] at h
      subst h
      exact ⟨rfl, Nat.le_refl _, Nat.le_succ _, fun i hi => ⟨by simp [hi], fun _ => rfl⟩⟩
    | some mm =>
      cases hml : aln.ml with
      | none =>
        rw [hmm, hml] at h
        simp only [Option.some.injEq] at h
        subst h
        exact ⟨rfl, Nat.le_refl _, Nat.le_succ _, fun i hi => ⟨by simp [hi], fun _ => rfl⟩⟩
      | some ml =>
        rw [hmm, hml] at h
        simp only [cigar_loop_eq] at h
        cases hacc : (walk_pairs aln.pos 0 aln.cigar).foldl
            (fun a x => test_site st.cpg_sites header.target_name[aln.tid]? ml st.read_count
              x.1 x.2 a) (some st.likelihood_matrix) with
        | none => rw [hacc] at h; simp at h
        | some m =>
          rw [hacc] at h
          simp only [Option.some.injEq] at h
          subst h
          refine ⟨rfl, Nat.le_succ _, Nat.le_refl _, fun i hi => ⟨by simp [hi], fun j => ?_⟩⟩
          exact foldl_test_site_frame _ _ _ _ _ _ _ hacc i j hi
  · rw [if_neg hg] at h
    simp at h

theorem scan_region_none (header : bam_hdr_t) (reads : List bam1_t) :
    scan_region header none reads = none := by
  induction reads with
  | nil => rfl
  | cons aln rest ih =>
    have hstep : scan_region header none (aln :: rest) = scan_region header none rest := rfl
    rw [hstep, ih]

/-- The calls for the reads of one region, when they all return, leave the panel as it
is, do not lower `read_count`, and change neither a name nor a cell of a row below the
`read_count` at the start. -/
theorem scan_region_frame (header : bam_hdr_t) (reads : List bam1_t) (st st' : State)
    (h : scan_region header (some st) reads = some st') :
    st'.cpg_sites = st.cpg_sites ∧ st.read_count ≤ st'.read_count ∧
      ∀ i : Nat, i < st.read_count →
        st'.read_names i = st.read_names i ∧
          ∀ j : Nat, st'.likelihood_matrix i j = st.likelihood_matrix i j := by
  induction reads generalizing st with
  | nil =>
    simp only [scan_region, List.foldl_nil, Option.some.injEq] at h
    subst h
    exact ⟨rfl, Nat.le_refl _, fun _ _ => ⟨rfl, fun _ => rfl⟩⟩
  | cons aln rest ih =>
    have hstep : scan_region header (some st) (aln :: rest) =
        scan_region header (extract_methylation st aln header) rest := rfl
    rw [hstep] at h
    cases h1 : extract_methylation st aln header with
    | none => rw [h1, scan_region_none] at h; simp at h
    | some st1 =>
      rw [h1] at h
      obtain ⟨hs1, hle1, _, hrows1⟩ := extract_methylation_frame st st1 aln header h1
      obtain ⟨hs, hle, hrows⟩ := ih st1 h
      refine ⟨hs.trans hs1, Nat.le_trans hle1 hle, fun i hi => ?_⟩
      have h2 := hrows i (Nat.lt_of_lt_of_le hi hle1)
      have h3 := hrows1 i (Nat.ne_of_lt hi)
      exact ⟨h2.1.trans h3.1, fun j => (h2.2 j).trans (h3.2 j)⟩

/-! ## C3 : a read returned by the queries of two sites -/

/-- C3, as the claim states it, at `example_read`, which the queries of both sites of
`example_panel` return: the scan gives the read the two rows 0 and 1, each with its name
and the cells `[20, 40]` of both sites, and `read_count` grows from 0 to 2, not to 1. -/
theorem scan_same_read_two_rows :
    (scan_sites example_query example_header example_state).map
        (fun st' => ((st'.read_count, st'.read_names 0, st'.read_names 1,
          [st'.likelihood_matrix 0 0, st'.likelihood_matrix 0 1],
          [st'.likelihood_matrix 1 0, st'.likelihood_matrix 1 1]) :
            Nat × String × String × List Int × List Int)) =
      some (2, "read1", "read1", [20, 40], [20, 40]) ∧
    ¬ ((scan_sites example_query example_header example_state).map
        (fun st' => st'.read_count) = some (example_state.read_count + 1)) := by
  constructor <;> decide

/-- C3, amended. A read with both tags that is handed to `extract_methylation` twice in
a scan gets a row at each call: the first call (row `r = read_count`, free and within the
arrays) returns, and whatever reads are processed between the two calls, when the row at
the `read_count` reached by then exists, the second call returns and uses that new row,
which is above `r`; `read_count` has then grown by at least two (exactly two when the
calls follow each other), and each of the two rows holds the name of the read and, for
every pair `(p, q)` the walk emits with `p` a panel site of column `j`, the value `ml[q]`
in column `j`. -/
theorem same_read_gets_two_rows (st : State) (aln : bam1_t) (header : bam_hdr_t)
    (mm ml : List Nat) (c : String)
    (hmm : aln.mm = some mm) (hml : aln.ml = some ml)
    (hchrom : header.target_name[aln.tid]? = some c)
    (hrow : st.read_count < MAX_READS) (hname : aln.qname.utf8ByteSize < 100)
    (hcap : st.cpg_sites.length ≤ MAX_CPG)
    (hrange : ∀ x ∈ tested_pairs aln.pos aln.cigar,
      0 ≤ find_cpg_index st.cpg_sites c x.1 → x.2 < ml.length) :
    ∃ st1, extract_methylation st aln header = some st1 ∧
      st1.read_count = st.read_count + 1 ∧
      ∀ (between : List bam1_t) (stm : State),
        scan_region header (some st1) between = some stm → stm.read_count < MAX_READS →
        ∃ st2, extract_methylation stm aln header = some st2 ∧
          st.read_count < stm.read_count ∧
          st2.read_count = stm.read_count + 1 ∧
          st.read_count + 2 ≤ st2.read_count ∧
          (between = [] → st2.read_count = st.read_count + 2) ∧
          st2.read_names st.read_count = aln.qname ∧
          st2.read_names stm.read_count = aln.qname ∧
          ∀ x ∈ tested_pairs aln.pos aln.cigar, ∀ j : Nat,
            find_cpg_index st.cpg_sites c x.1 = (j : Int) →
            ∃ v, ml[x.2]? = some v ∧
              st2.likelihood_matrix st.read_count j = (v : Int) ∧
              st2.likelihood_matrix stm.read_count j = (v : Int) := by
  obtain ⟨st1, hst1, hsites1, hcount1, hnames1, _, _, hhit1⟩ :=
    extract_methylation_tagged st aln header mm ml c hmm hml hchrom hrow hname hcap hrange
  refine ⟨st1, hst1, hcount1, fun between stm hmid hrowm => ?_⟩
  obtain ⟨hsitesm, hcountm, hrowsm⟩ := scan_region_frame header between st1 stm hmid
  have hsm : stm.cpg_sites = st.cpg_sites := hsitesm.trans hsites1
  have hlt : st.read_count < stm.read_count := by omega
  obtain ⟨st2, hst2, _, hcount2, hnames2, hframe2, _, hhit2⟩ :=
    extract_methylation_tagged stm aln header mm ml c hmm hml hchrom hrowm hname
      (by rw [hsm]; exact hcap) (by rw [hsm]; exact hrange)
  have hkeep := hrowsm st.read_count (by omega)
  refine ⟨st2, hst2, hlt, hcount2, by omega, ?_, ?_, ?_, ?_⟩
  · intro hb
    subst hb
    simp only [scan_region, List.foldl_nil, Option.some.injEq] at hmid
    subst hmid
    omega
  · rw [hnames2, if_neg (Nat.ne_of_lt hlt), hkeep.1, hnames1, if_pos rfl]
  · rw [hnames2, if_pos rfl]
  · intro x hx j hj
    obtain ⟨v, hv, hcell1⟩ := hhit1 x hx j hj
    obtain ⟨v', hv', hcell2⟩ := hhit2 x hx j (by rw [hsm]; exact hj)
    rw [hv] at hv'
    cases hv'
    refine ⟨v, hv, ?_, hcell2⟩
    rw [hframe2 _ j (Nat.ne_of_lt hlt), hkeep.2 j, hcell1]

/-- C3, amended, at `example_read` on `example_state`. -/
theorem same_read_gets_two_rows_witness :
    (example_read.mm = some [] ∧ example_read.ml = some example_ml ∧
      example_header.target_name[example_read.tid]? = some "chr1" ∧
      example_state.read_count < MAX_READS ∧ example_read.qname.utf8ByteSize < 100 ∧
      example_state.cpg_sites.length ≤ MAX_CPG ∧
      ∀ x ∈ tested_pairs example_read.pos example_read.cigar,
        0 ≤ find_cpg_index example_state.cpg_sites "chr1" x.1 → x.2 < example_ml.length) ∧
    ∃ st1, extract_methylation example_state example_read example_header = some st1 ∧
      st1.read_count = example_state.read_count + 1 ∧
      ∀ (between : List bam1_t) (stm : State),
        scan_region example_header (some st1) between = some stm →
        stm.read_count < MAX_READS →
        ∃ st2, extract_methylation stm example_read example_header = some st2 ∧
          example_state.read_count < stm.read_count ∧
          st2.read_count = stm.read_count + 1 ∧
          example_state.read_count + 2 ≤ st2.read_count ∧
          (between = [] → st2.read_count = example_state.read_count + 2) ∧
          st2.read_names example_state.read_count = example_read.qname ∧
          st2.read_names stm.read_count = example_read.qname ∧
          ∀ x ∈ tested_pairs example_read.pos example_read.cigar, ∀ j : Nat,
            find_cpg_index example_state.cpg_sites "chr1" x.1 = (j : Int) →
            ∃ v, example_ml[x.2]? = some v ∧
              st2.likelihood_matrix example_state.read_count j = (v : Int) ∧
              st2.likelihood_matrix stm.read_count j = (v : Int) :=
  ⟨⟨rfl, rfl, rfl, by decide, by decide, by decide, by decide⟩,
    same_read_gets_two_rows example_state example_read example_header [] example_ml
      "chr1" rfl rfl rfl (by decide) (by decide) (by decide) (by decide)⟩

/-! ## C12, C13 : operations that move no counter -/

theorem cigar_loop_append {σ : Type} (body : Int → Nat → σ → σ) (w : Walk σ) (l₁ l₂ : List Nat) :
    cigar_loop body w (l₁ ++ l₂) = cigar_loop body (cigar_loop body w l₁) l₂ := by
  simp [cigar_loop, List.foldl_append]

/-- The `default` branch leaves the loop variables and the state as they are. -/
theorem cigar_step_unrecognized {σ : Type} (body : Int → Nat → σ → σ) (w : Walk σ) (c : Nat)
    (h : unrecognized_op c = true) : cigar_step body w c = w := by
  simp only [unrecognized_op, Bool.not_eq_true', Bool.or_eq_false_iff, beq_eq_false_iff_ne,
    ne_eq] at h
  obtain ⟨⟨⟨⟨⟨⟨⟨h0, h7⟩, h8⟩, h1⟩, h2⟩, h4⟩, h5⟩, h3⟩ := h
  simp [cigar_step, h0, h1, h2, h3, h4, h5, h7, h8]

/-- The HARD_CLIP branch leaves the loop variables and the state as they are. -/
theorem cigar_step_hard_clip {σ : Type} (body : Int → Nat → σ → σ) (w : Walk σ) (c : Nat)
    (h : bam_cigar_op c = BAM_CHARD_CLIP) : cigar_step body w c = w := by
  simp [cigar_step, h, BAM_CHARD_CLIP, BAM_CMATCH, BAM_CEQUAL, BAM_CDIFF, BAM_CINS, BAM_CDEL,
    BAM_CSOFT_CLIP]

theorem cigar_loop_without_hard_clips {σ : Type} (body : Int → Nat → σ → σ) (cigar : List Nat)
    (w : Walk σ) :
    cigar_loop body w (without_hard_clips cigar) = cigar_loop body w cigar := by
  induction cigar generalizing w with
  | nil => rfl
  | cons c cs ih =>
    have hstep : cigar_loop body w (c :: cs) = cigar_loop body (cigar_step body w c) cs := rfl
    by_cases h : bam_cigar_op c = BAM_CHARD_CLIP
    · have hf : without_hard_clips (c :: cs) = without_hard_clips cs := by
        simp [without_hard_clips, List.filter_cons, h]
      rw [hf, hstep, cigar_step_hard_clip body w c h, ih]
    · have hf : without_hard_clips (c :: cs) = c :: without_hard_clips cs := by
        simp [without_hard_clips, List.filter_cons, h]
      have hstep' : cigar_loop body w (c :: without_hard_clips cs) =
          cigar_loop body (cigar_step body w c) (without_hard_clips cs) := rfl
      rw [hf, hstep', hstep, ih]

/-- C12. For every CIGAR list that contains an operation `c` whose operator is none of
MATCH, EQUAL, DIFF, INSERTION, DELETION, SOFT_CLIP, HARD_CLIP, REFERENCE_SKIP, wherever
it stands and whatever its length: the step of `c` leaves both counters and the state as
they are, the walk goes on with the remaining operations, the emitted pairs are those of
the CIGAR without `c`, and `extract_methylation` gives the same result as on the read with
`c` removed. -/
theorem unrecognized_op_is_skipped (c : Nat) (l₁ l₂ : List Nat)
    (hop : unrecognized_op c = true) :
    (∀ (σ : Type) (body : Int → Nat → σ → σ) (w : Walk σ), cigar_step body w c = w) ∧
    (∀ s : Int, tested_pairs s (l₁ ++ c :: l₂) = tested_pairs s (l₁ ++ l₂)) ∧
    (∀ (st : State) (aln : bam1_t) (header : bam_hdr_t),
      extract_methylation st { aln with cigar := l₁ ++ c :: l₂ } header =
        extract_methylation st { aln with cigar := l₁ ++ l₂ } header) := by
  have hloop : ∀ (σ : Type) (body : Int → Nat → σ → σ) (w : Walk σ),
      cigar_loop body w (l₁ ++ c :: l₂) = cigar_loop body w (l₁ ++ l₂) := by
    intro σ body w
    have hstep : cigar_loop body (cigar_loop body w l₁) (c :: l₂) =
        cigar_loop body (cigar_step body (cigar_loop body w l₁) c) l₂ := rfl
    rw [cigar_loop_append, cigar_loop_append, hstep, cigar_step_unrecognized body _ c hop]
  refine ⟨fun σ body w => cigar_step_unrecognized body w c hop, fun s => ?_, fun st aln header => ?_⟩
  · simp only [tested_pairs, hloop]
  · simp only [extract_methylation, hloop]

/-- C12 at a PAD operation of length 7 between two MATCH operations. -/
theorem unrecognized_op_is_skipped_witness :
    unrecognized_op (bam_cigar_gen 7 BAM_CPAD) = true ∧
    (∀ (σ : Type) (body : Int → Nat → σ → σ) (w : Walk σ),
      cigar_step body w (bam_cigar_gen 7 BAM_CPAD) = w) ∧
    (∀ s : Int,
      tested_pairs s ([bam_cigar_gen 2 BAM_CMATCH] ++
          bam_cigar_gen 7 BAM_CPAD :: [bam_cigar_gen 2 BAM_CMATCH]) =
        tested_pairs s ([bam_cigar_gen 2 BAM_CMATCH] ++ [bam_cigar_gen 2 BAM_CMATCH])) ∧
    (∀ (st : State) (aln : bam1_t) (header : bam_hdr_t),
      extract_methylation st
          { aln with cigar := [bam_cigar_gen 2 BAM_CMATCH] ++
              bam_cigar_gen 7 BAM_CPAD :: [bam_cigar_gen 2 BAM_CMATCH] } header =
        extract_methylation st
          { aln with cigar := [bam_cigar_gen 2 BAM_CMATCH] ++ [bam_cigar_gen 2 BAM_CMATCH] }
          header) :=
  ⟨by decide,
    unrecognized_op_is_skipped (bam_cigar_gen 7 BAM_CPAD) [bam_cigar_gen 2 BAM_CMATCH]
      [bam_cigar_gen 2 BAM_CMATCH] (by decide)⟩

/-- C13. For every alignment start and every CIGAR list, HARD_CLIP operations advance
neither counter and emit nothing: the step of a HARD_CLIP word leaves the loop variables
as they are, and the emitted pairs are those of the CIGAR with every HARD_CLIP operation
removed, wherever the hard clips stand and whatever their lengths. -/
theorem hard_clips_emit_nothing :
    (∀ (σ : Type) (body : Int → Nat → σ → σ) (w : Walk σ) (L : Nat),
      cigar_step body w (bam_cigar_gen L BAM_CHARD_CLIP) = w) ∧
    (∀ (s : Int) (cigar : List Nat),
      tested_pairs s cigar = tested_pairs s (without_hard_clips cigar)) := by
  refine ⟨fun σ body w L => ?_, fun s cigar => ?_⟩
  · exact cigar_step_hard_clip body w _ (bam_cigar_op_gen L BAM_CHARD_CLIP (by decide))
  · simp only [tested_pairs, cigar_loop_without_hard_clips]

/-! ## C18 : order of the pairs, one write per cell -/

theorem foldl_column_log (cpg_sites : List CpGSite) (chrom : String) (l : List (Int × Nat))
    (acc : List Nat) :
    l.foldl (fun (a : List Nat) x =>
        if 0 ≤ find_cpg_index cpg_sites chrom x.1 then
          a ++ [(find_cpg_index cpg_sites chrom x.1).toNat]
        else a) acc =
      acc ++ (l.filter fun x => decide (0 ≤ find_cpg_index cpg_sites chrom x.1)).map
        fun x => (find_cpg_index cpg_sites chrom x.1).toNat := by
  induction l generalizing acc with
  | nil => simp
  | cons x xs ih =>
    by_cases h : 0 ≤ find_cpg_index cpg_sites chrom x.1
    · simp [List.foldl_cons, List.filter_cons, h, ih]
    · simp [List.foldl_cons, List.filter_cons, h, ih]

/-- The columns written are the columns found for the tested pairs that hit the panel. -/
theorem columns_written_eq (cpg_sites : List CpGSite) (chrom : String) (s : Int)
    (cigar : List Nat) :
    columns_written cpg_sites chrom s cigar =
      ((walk_pairs s 0 cigar).filter fun x =>
        decide (0 ≤ find_cpg_index cpg_sites chrom x.1)).map
        fun x => (find_cpg_index cpg_sites chrom x.1).toNat := by
  simp only [columns_written, cigar_loop_eq]
  simpa using foldl_column_log cpg_sites chrom (walk_pairs s 0 cigar) []

/-- C18. For every alignment start and every CIGAR list, the emitted pairs are strictly
increasing in both coordinates, each later pair having a larger reference position and a
larger read offset than each earlier one; and within one call no cell is written more
than once: the columns written for the read are pairwise different, whatever the panel,
also when it lists a site twice. -/
theorem tested_pairs_increasing_one_write (s : Int) (cigar : List Nat) :
    (tested_pairs s cigar).Pairwise (fun x y => x.1 < y.1 ∧ x.2 < y.2) ∧
    ∀ (cpg_sites : List CpGSite) (chrom : String),
      (columns_written cpg_sites chrom s cigar).Nodup := by
  refine ⟨by rw [tested_pairs_eq_walk_pairs]; exact walk_pairs_pairwise cigar s 0, ?_⟩
  intro cpg_sites chrom
  rw [columns_written_eq, List.Nodup, List.pairwise_map]
  refine List.Pairwise.imp_of_mem ?_ ((walk_pairs_pairwise cigar s 0).filter _)
  intro x y hx hy hlt heq
  have hxhit : 0 ≤ find_cpg_index cpg_sites chrom x.1 := by
    simpa using (List.mem_filter.mp hx).2
  have hyhit : 0 ≤ find_cpg_index cpg_sites chrom y.1 := by
    simpa using (List.mem_filter.mp hy).2
  have h1 : find_cpg_index cpg_sites chrom x.1 =
      (((find_cpg_index cpg_sites chrom x.1).toNat : Nat) : Int) := by omega
  have h2 : find_cpg_index cpg_sites chrom y.1 =
      (((find_cpg_index cpg_sites chrom x.1).toNat : Nat) : Int) := by omega
  have := find_cpg_index_inj cpg_sites chrom x.1 y.1 _ h1 h2
  omega

/-! ## C19 : what a call can change -/

/-- C19. For every call of `extract_methylation` that returns, with row index
`r = read_count` before the call: every cell `likelihood_matrix[i][j]` with `i ≠ r`,
every `read_names[i]` with `i ≠ r`, and the panel are the same after the call as before
it. -/
theorem extract_methylation_changes_one_row (st st' : State) (aln : bam1_t)
    (header : bam_hdr_t) (h : extract_methylation st aln header = some st') :
    (∀ i j : Nat, i ≠ st.read_count → st'.likelihood_matrix i j = st.likelihood_matrix i j) ∧
    (∀ i : Nat, i ≠ st.read_count → st'.read_names i = st.read_names i) ∧
    st'.cpg_sites = st.cpg_sites ∧ st'.cpg_count = st.cpg_count := by
  obtain ⟨hsites, _, _, hrows⟩ := extract_methylation_frame st st' aln header h
  exact ⟨fun i j hi => (hrows i hi).2 j, fun i hi => (hrows i hi).1, hsites,
    by rw [State.cpg_count, State.cpg_count, hsites]⟩

/-- C19 at `example_read` on `example_state`. -/
theorem extract_methylation_changes_one_row_witness :
    extract_methylation example_state example_read example_header = some example_state_after ∧
    (∀ i j : Nat, i ≠ example_state.read_count →
      example_state_after.likelihood_matrix i j = example_state.likelihood_matrix i j) ∧
    (∀ i : Nat, i ≠ example_state.read_count →
      example_state_after.read_names i = example_state.read_names i) ∧
    example_state_after.cpg_sites = example_state.cpg_sites ∧
    example_state_after.cpg_count = example_state.cpg_count :=
  ⟨rfl, extract_methylation_changes_one_row example_state example_state_after example_read
    example_header rfl⟩

/-! ## C20 : a site listed twice -/

/-- A run of lines 77-80 that stays inside the arrays leaves a column that
`find_cpg_index` never returns as it is. -/
theorem test_site_column (cpg_sites : List CpGSite) (chrom : Option String) (ml : List Nat)
    (row : Nat) (ref_pos : Int) (read_pos : Nat) (m m' : Matrix) (j : Nat)
    (hnever : ∀ (c : String) (p : Int), find_cpg_index cpg_sites c p ≠ (j : Int))
    (h : test_site cpg_sites chrom ml row ref_pos read_pos (some m) = some m') :
    ∀ i : Nat, m' i j = m i j := by
  intro i
  cases chrom with
  | none => simp [test_site] at h
  | some name =>
    simp only [test_site] at h
    by_cases hhit : 0 ≤ find_cpg_index cpg_sites name ref_pos
    · rw [if_pos hhit] at h
      cases hv : ml[read_pos]? with
      | none => rw [hv] at h; simp at h
      | some v =>
        rw [hv] at h
        by_cases hg : row < MAX_READS ∧ (find_cpg_index cpg_sites name ref_pos).toNat < MAX_CPG
        · simp only [if_pos hg, Option.some.injEq] at h
          have hne : j ≠ (find_cpg_index cpg_sites name ref_pos).toNat := by
            have := hnever name ref_pos
            omega
          rw [← h]
          simp [Matrix.set, hne]
        · simp [if_neg hg] at h
    · simp only [if_neg hhit, Option.some.injEq] at h
      rw [h]

theorem foldl_test_site_column (cpg_sites : List CpGSite) (chrom : Option String)
    (ml : List Nat) (row : Nat) (l : List (Int × Nat)) (m m' : Matrix) (j : Nat)
    (hnever : ∀ (c : String) (p : Int), find_cpg_index cpg_sites c p ≠ (j : Int))
    (h : l.foldl (fun a x => test_site cpg_sites chrom ml row x.1 x.2 a) (some m) = some m') :
    ∀ i : Nat, m' i j = m i j := by
  induction l generalizing m with
  | nil =>
    simp only [List.foldl_nil, Option.some.injEq] at h
    intro i
    rw [h]
  | cons x xs ih =>
    rw [List.foldl_cons] at h
    cases h1 : test_site cpg_sites chrom ml row x.1 x.2 (some m) with
    | none => rw [h1, foldl_test_site_none] at h; simp at h
    | some m1 =>
      rw [h1] at h
      intro i
      rw [ih m1 h i, test_site_column cpg_sites chrom ml row x.1 x.2 m m1 j hnever h1 i]

/-- A call that returns leaves a column that `find_cpg_index` never returns as it is, in
every row. -/
theorem extract_methylation_column (st st' : State) (aln : bam1_t) (header : bam_hdr_t)
    (j : Nat) (hnever : ∀ (c : String) (p : Int), find_cpg_index st.cpg_sites c p ≠ (j : Int))
    (h : extract_methylation st aln header = some st') :
    ∀ i : Nat, st'.likelihood_matrix i j = st.likelihood_matrix i j := by
  unfold extract_methylation at h
  by_cases hg : st.read_count < MAX_READS ∧ aln.qname.utf8ByteSize < 100
  · rw [if_pos hg] at h
    cases hmm : aln.mm with
    | none =>
      rw [hmm] at h
      simp only [Option.some.injEq] at h
      subst h
      exact fun _ => rfl
    | some mm =>
      cases hml : aln.ml with
      | none =>
        rw [hmm, hml] at h
        simp only [Option.some.injEq] at h
        subst h
        exact fun _ => rfl
      | some ml =>
        rw [hmm, hml] at h
        simp only [cigar_loop_eq] at h
        cases hacc : (walk_pairs aln.pos 0 aln.cigar).foldl
            (fun a x => test_site st.cpg_sites header.target_name[aln.tid]? ml st.read_count
              x.1 x.2 a) (some st.likelihood_matrix) with
        | none => rw [hacc] at h; simp at h
        | some m =>
          rw [hacc] at h
          simp only [Option.some.injEq] at h
          subst h
          exact foldl_test_site_column _ _ _ _ _ _ _ j hnever hacc
  · rw [if_neg hg] at h
    simp at h

/-- C20. When the panel lists the same `(chromosome, position)` at two indices `i < j`,
`i` being its first index: `find_cpg_index` returns `i` for that site; for every query it
returns an index that is at most every matching index; it never returns `j`, so `j` is not
among the columns written for any read, and every call that returns leaves the cells of
column `j` at the values they had; and for a read on the chromosome of the site whose walk
emits a pair `(p, q)` at the position of the site, column `i` receives `ml[q]`. -/
theorem duplicate_site_first_index (cpg_sites : List CpGSite) (i j : Nat) (site : CpGSite)
    (hi : cpg_sites[i]? = some site) (hj : cpg_sites[j]? = some site) (hij : i < j)
    (hfirst : ∀ (k : Nat) (site' : CpGSite), k < i → cpg_sites[k]? = some site' →
      ¬ (site'.chrom = site.chrom ∧ site'.pos = site.pos)) :
    find_cpg_index cpg_sites site.chrom site.pos = (i : Int) ∧
    (∀ (c : String) (p : Int) (k : Nat) (site' : CpGSite), cpg_sites[k]? = some site' →
      site'.chrom = c → site'.pos = p →
      0 ≤ find_cpg_index cpg_sites c p ∧ find_cpg_index cpg_sites c p ≤ (k : Int)) ∧
    (∀ (c : String) (p : Int), find_cpg_index cpg_sites c p ≠ (j : Int)) ∧
    (∀ (chrom : String) (s : Int) (cigar : List Nat),
      j ∉ columns_written cpg_sites chrom s cigar) ∧
    (∀ (st st' : State) (aln : bam1_t) (header : bam_hdr_t), st.cpg_sites = cpg_sites →
      extract_methylation st aln header = some st' →
      ∀ r : Nat, st'.likelihood_matrix r j = st.likelihood_matrix r j) ∧
    (∀ (st : State) (aln : bam1_t) (header : bam_hdr_t) (mm ml : List Nat),
      st.cpg_sites = cpg_sites → aln.mm = some mm → aln.ml = some ml →
      header.target_name[aln.tid]? = some site.chrom →
      st.read_count < MAX_READS → aln.qname.utf8ByteSize < 100 →
      cpg_sites.length ≤ MAX_CPG →
      (∀ x ∈ tested_pairs aln.pos aln.cigar,
        0 ≤ find_cpg_index cpg_sites site.chrom x.1 → x.2 < ml.length) →
      ∀ x ∈ tested_pairs aln.pos aln.cigar, x.1 = site.pos →
        ∃ st' v, extract_methylation st aln header = some st' ∧ ml[x.2]? = some v ∧
          st'.likelihood_matrix st.read_count i = (v : Int) ∧
          st'.likelihood_matrix st.read_count j = st.likelihood_matrix st.read_count j) := by
  have hleast : ∀ (c : String) (p : Int) (k : Nat) (site' : CpGSite),
      cpg_sites[k]? = some site' → site'.chrom = c → site'.pos = p →
      0 ≤ find_cpg_index cpg_sites c p ∧ find_cpg_index cpg_sites c p ≤ (k : Int) := by
    intro c p k site' hk hc hp
    rcases find_cpg_index_spec cpg_sites c p with ⟨_, hnone⟩ | ⟨k0, s0, _, _, hres, hmin⟩
    · exact absurd ⟨hc, hp⟩ (hnone site' (List.getElem?_mem hk))
    · rw [hres]
      refine ⟨Int.natCast_nonneg _, ?_⟩
      by_contra hlt
      exact hmin k site' (by omega) hk ⟨hc, hp⟩
  have hfind : find_cpg_index cpg_sites site.chrom site.pos = (i : Int) := by
    rcases find_cpg_index_spec cpg_sites site.chrom site.pos with
      ⟨_, hnone⟩ | ⟨k0, s0, hk0, hs0, hres, hmin⟩
    · exact absurd ⟨rfl, rfl⟩ (hnone site (List.getElem?_mem hi))
    · rw [hres]
      have h1 : ¬ k0 < i := fun hlt => hfirst k0 s0 hlt hk0 hs0
      have h2 : ¬ i < k0 := fun hlt => hmin i site hlt hi ⟨rfl, rfl⟩
      have : k0 = i := by omega
      rw [this]
  have hnever : ∀ (c : String) (p : Int), find_cpg_index cpg_sites c p ≠ (j : Int) := by
    intro c p hres
    obtain ⟨sj, hsj, hc, hp⟩ := find_cpg_index_site cpg_sites c p j hres
    rw [hj] at hsj
    cases hsj
    have := (hleast c p i site hi hc hp).2
    omega
  refine ⟨hfind, hleast, hnever, ?_, ?_, ?_⟩
  · intro chrom s cigar hmem
    rw [columns_written_eq, List.mem_map] at hmem
    obtain ⟨x, hx, hxj⟩ := hmem
    have hhit : 0 ≤ find_cpg_index cpg_sites chrom x.1 := by
      simpa using (List.mem_filter.mp hx).2
    exact hnever chrom x.1 (by omega)
  · intro st st' aln header hst h r
    exact extract_methylation_column st st' aln header j (by rw [hst]; exact hnever) h r
  · intro st aln header mm ml hst hmm hml hchrom hrow hname hcap hrange x hx hpos
    subst hst
    obtain ⟨st', hst', _, _, _, _, _, hhit⟩ :=
      extract_methylation_tagged st aln header mm ml site.chrom hmm hml hchrom hrow hname
        hcap hrange
    obtain ⟨v, hv, hcell⟩ := hhit x hx i (by rw [hpos]; exact hfind)
    exact ⟨st', v, hst', hv, hcell,
      extract_methylation_column st st' aln header j hnever hst' st.read_count⟩

/-- C20 at `example_duplicate_panel`, which lists `chr1:101` at columns 0 and 2. -/
theorem duplicate_site_first_index_witness :
    (example_duplicate_panel[0]? = some example_duplicate_site ∧
      example_duplicate_panel[2]? = some example_duplicate_site ∧ 0 < 2 ∧
      ∀ (k : Nat) (site' : CpGSite), k < 0 → example_duplicate_panel[k]? = some site' →
        ¬ (site'.chrom = example_duplicate_site.chrom ∧
          site'.pos = example_duplicate_site.pos)) ∧
    (find_cpg_index example_duplicate_panel example_duplicate_site.chrom
        example_duplicate_site.pos = ((0 : Nat) : Int) ∧
    (∀ (c : String) (p : Int) (k : Nat) (site' : CpGSite),
      example_duplicate_panel[k]? = some site' → site'.chrom = c → site'.pos = p →
      0 ≤ find_cpg_index example_duplicate_panel c p ∧
        find_cpg_index example_duplicate_panel c p ≤ (k : Int)) ∧
    (∀ (c : String) (p : Int), find_cpg_index example_duplicate_panel c p ≠ ((2 : Nat) : Int)) ∧
    (∀ (chrom : String) (s : Int) (cigar : List Nat),
      2 ∉ columns_written example_duplicate_panel chrom s cigar) ∧
    (∀ (st st' : State) (aln : bam1_t) (header : bam_hdr_t),
      st.cpg_sites = example_duplicate_panel →
      extract_methylation st aln header = some st' →
      ∀ r : Nat, st'.likelihood_matrix r 2 = st.likelihood_matrix r 2) ∧
    (∀ (st : State) (aln : bam1_t) (header : bam_hdr_t) (mm ml : List Nat),
      st.cpg_sites = example_duplicate_panel → aln.mm = some mm → aln.ml = some ml →
      header.target_name[aln.tid]? = some example_duplicate_site.chrom →
      st.read_count < MAX_READS → aln.qname.utf8ByteSize < 100 →
      example_duplicate_panel.length ≤ MAX_CPG →
      (∀ x ∈ tested_pairs aln.pos aln.cigar,
        0 ≤ find_cpg_index example_duplicate_panel example_duplicate_site.chrom x.1 →
          x.2 < ml.length) →
      ∀ x ∈ tested_pairs aln.pos aln.cigar, x.1 = example_duplicate_site.pos →
        ∃ st' v, extract_methylation st aln header = some st' ∧ ml[x.2]? = some v ∧
          st'.likelihood_matrix st.read_count 0 = (v : Int) ∧
          st'.likelihood_matrix st.read_count 2 = st.likelihood_matrix st.read_count 2)) :=
  ⟨⟨rfl, rfl, by decide, fun k _ hk => absurd hk (Nat.not_lt_zero k)⟩,
    duplicate_site_first_index example_duplicate_panel 0 2 example_duplicate_site
      rfl rfl (by decide) (fun k _ hk => absurd hk (Nat.not_lt_zero k))⟩

/-! ## C11 : sites in a deletion or outside the read -/

/-- No pair of the walk has its reference position in the span of a DELETION or
REFERENCE_SKIP operation. -/
theorem walk_pairs_not_skipped (cigar : List Nat) (p : Int) (q : Nat) (x : Int × Nat)
    (hx : x ∈ walk_pairs p q cigar) : ¬ in_skipped_span p cigar x.1 := by
  induction cigar generalizing p q with
  | nil => simp [walk_pairs] at hx
  | cons c cs ih =>
    rintro ⟨k, hk, hop, hlo, hhi⟩
    simp only [walk_pairs, List.mem_append] at hx
    cases k with
    | zero =>
      have hnil : reference_consumed [] = 0 := rfl
      simp only [List.getD_cons_zero, List.take_zero, hnil] at hop hlo hhi
      have hna : is_aligned_op c = false := by
        rcases hop with h | h <;>
          simp [is_aligned_op, h, BAM_CDEL, BAM_CREF_SKIP, BAM_CMATCH, BAM_CEQUAL, BAM_CDIFF]
      have hr : consumes_reference c = true := by
        rcases hop with h | h <;> simp [consumes_reference, h]
      rcases hx with hx | hx
      · simp [hna] at hx
      · have hb := walk_pairs_bounds cs _ _ x hx
        simp only [hr, if_true] at hb
        omega
    | succ k' =>
      simp only [List.getD_cons_succ, List.take_succ_cons, reference_consumed_cons,
        List.length_cons] at hk hop hlo hhi
      rcases hx with hx | hx
      · by_cases ha : is_aligned_op c = true
        · have hr : consumes_reference c = true := by simp [consumes_reference, ha]
          simp only [ha, if_true] at hx
          rcases (mem_aligned_run _ _ _ _).mp hx with ⟨i, hi, rfl⟩
          simp only [hr, if_true] at hlo
          push_cast at hlo
          have : p + (i : Int) < p + (bam_cigar_oplen c : Int) := by omega
          omega
        · simp [ha] at hx
      · refine ih _ _ hx ⟨k', by omega, hop, ?_, ?_⟩
        · rw [Nat.cast_add] at hlo
          omega
        · rw [Nat.cast_add] at hhi
          omega

/-- C11. For every read with modification calls processed into a fresh, all-zero row
(when no access leaves an array) and every panel site `(c, p)` on the chromosome of the
read: if `p` lies inside the reference span of a DELETION or REFERENCE_SKIP operation of
the read, or outside the aligned reference span of the read, the cell of the column of
the site in the row of the read is still 0 after `extract_methylation`; and a cell of the
row that is not 0 belongs to a site at whose position the walk emitted a pair, that is to
a MATCH/EQUAL/DIFF base landing exactly on `p`. -/
theorem unaligned_site_cell_stays_zero (st : State) (aln : bam1_t) (header : bam_hdr_t)
    (mm ml : List Nat) (c : String)
    (hmm : aln.mm = some mm) (hml : aln.ml = some ml)
    (hchrom : header.target_name[aln.tid]? = some c)
    (hrow : st.read_count < MAX_READS) (hname : aln.qname.utf8ByteSize < 100)
    (hcap : st.cpg_sites.length ≤ MAX_CPG)
    (hrange : ∀ x ∈ tested_pairs aln.pos aln.cigar,
      0 ≤ find_cpg_index st.cpg_sites c x.1 → x.2 < ml.length)
    (hfresh : ∀ j : Nat, st.likelihood_matrix st.read_count j = 0) :
    ∃ st', extract_methylation st aln header = some st' ∧
      (∀ (j : Nat) (site : CpGSite), st.cpg_sites[j]? = some site → site.chrom = c →
        (in_skipped_span aln.pos aln.cigar site.pos ∨
          outside_reference_span aln.pos aln.cigar site.pos) →
        st'.likelihood_matrix st.read_count j = 0) ∧
      (∀ (j : Nat) (site : CpGSite), st.cpg_sites[j]? = some site →
        st'.likelihood_matrix st.read_count j ≠ 0 →
        site.chrom = c ∧ ∃ x ∈ tested_pairs aln.pos aln.cigar, x.1 = site.pos) := by
  obtain ⟨st', hst', _, _, _, _, hmiss, _⟩ :=
    extract_methylation_tagged st aln header mm ml c hmm hml hchrom hrow hname hcap hrange
  have hcell : ∀ (j : Nat) (site : CpGSite), st.cpg_sites[j]? = some site →
      st'.likelihood_matrix st.read_count j ≠ 0 →
      site.chrom = c ∧ ∃ x ∈ tested_pairs aln.pos aln.cigar, x.1 = site.pos := by
    intro j site hj hne
    by_contra hcon
    apply hne
    rw [hmiss j ?_, hfresh j]
    intro x hx hfind
    obtain ⟨sj, hsj, hc, hp⟩ := find_cpg_index_site st.cpg_sites c x.1 j hfind
    rw [hj] at hsj
    cases hsj
    exact hcon ⟨hc, x, hx, hp.symm⟩
  refine ⟨st', hst', ?_, hcell⟩
  intro j site hj _ hspan
  by_contra hne
  obtain ⟨_, x, hx, hp⟩ := hcell j site hj hne
  rw [tested_pairs_eq_walk_pairs] at hx
  rcases hspan with hskip | hout | hout
  · rw [← hp] at hskip
    exact walk_pairs_not_skipped aln.cigar aln.pos 0 x hx hskip
  · have := walk_pairs_bounds aln.cigar aln.pos 0 x hx
    omega
  · have := walk_pairs_bounds aln.cigar aln.pos 0 x hx
    omega

/-- C11 at `example_deletion_read` on `example_state`: the site `chr1:103` of column 1
lies in the deletion of the read and its cell stays 0. -/
theorem unaligned_site_cell_stays_zero_witness :
    (example_deletion_read.mm = some [] ∧ example_deletion_read.ml = some example_ml ∧
      example_header.target_name[example_deletion_read.tid]? = some "chr1" ∧
      example_state.read_count < MAX_READS ∧
      example_deletion_read.qname.utf8ByteSize < 100 ∧
      example_state.cpg_sites.length ≤ MAX_CPG ∧
      (∀ x ∈ tested_pairs example_deletion_read.pos example_deletion_read.cigar,
        0 ≤ find_cpg_index example_state.cpg_sites "chr1" x.1 → x.2 < example_ml.length) ∧
      ∀ j : Nat, example_state.likelihood_matrix example_state.read_count j = 0) ∧
    ∃ st', extract_methylation example_state example_deletion_read example_header = some st' ∧
      (∀ (j : Nat) (site : CpGSite), example_state.cpg_sites[j]? = some site →
        site.chrom = "chr1" →
        (in_skipped_span example_deletion_read.pos example_deletion_read.cigar site.pos ∨
          outside_reference_span example_deletion_read.pos example_deletion_read.cigar
            site.pos) →
        st'.likelihood_matrix example_state.read_count j = 0) ∧
      (∀ (j : Nat) (site : CpGSite), example_state.cpg_sites[j]? = some site →
        st'.likelihood_matrix example_state.read_count j ≠ 0 →
        site.chrom = "chr1" ∧
          ∃ x ∈ tested_pairs example_deletion_read.pos example_deletion_read.cigar,
            x.1 = site.pos) :=
  ⟨⟨rfl, rfl, rfl, by decide, by decide, by decide, by decide, fun _ => rfl⟩,
    unaligned_site_cell_stays_zero example_state example_deletion_read example_header []
      example_ml "chr1" rfl rfl rfl (by decide) (by decide) (by decide) (by decide)
      (fun _ => rfl)⟩

/-! ## A sequence of calls -/

theorem has_calls_true (aln : bam1_t) (h : has_calls aln = true) :
    ∃ mm ml, aln.mm = some mm ∧ aln.ml = some ml := by
  simp only [has_calls, Bool.and_eq_true, Option.isSome_iff_exists] at h
  obtain ⟨⟨mm, hmm⟩, ⟨ml, hml⟩⟩ := h
  exact ⟨mm, ml, hmm, hml⟩

theorem has_calls_false (aln : bam1_t) (h : has_calls aln = false) :
    aln.mm = none ∨ aln.ml = none := by
  simp only [has_calls, Bool.and_eq_false_iff] at h
  rcases h with h | h
  · left
    cases hm : aln.mm with
    | none => rfl
    | some v => rw [hm] at h; simp at h
  · right
    cases hm : aln.ml with
    | none => rfl
    | some v => rw [hm] at h; simp at h

theorem accesses_in_range_name (cpg_sites : List CpGSite) (header : bam_hdr_t) (aln : bam1_t)
    (h : accesses_in_range cpg_sites header aln = true) : aln.qname.utf8ByteSize < 100 := by
  simp only [accesses_in_range, Bool.and_eq_true, decide_eq_true_eq] at h
  exact h.1

theorem accesses_in_range_tagged (cpg_sites : List CpGSite) (header : bam_hdr_t)
    (aln : bam1_t) (mm ml : List Nat) (hmm : aln.mm = some mm) (hml : aln.ml = some ml)
    (h : accesses_in_range cpg_sites header aln = true) :
    ∃ c, header.target_name[aln.tid]? = some c ∧
      ∀ x ∈ tested_pairs aln.pos aln.cigar,
        0 ≤ find_cpg_index cpg_sites c x.1 → x.2 < ml.length := by
  simp only [accesses_in_range, hmm, hml, Bool.and_eq_true, decide_eq_true_eq] at h
  cases hc : header.target_name[aln.tid]? with
  | none => rw [hc] at h; simp at h
  | some c =>
    rw [hc] at h
    refine ⟨c, rfl, fun x hx => ?_⟩
    have := List.all_eq_true.mp h.2 x hx
    exact of_decide_eq_true this

theorem rows_before_zero (reads : List bam1_t) : rows_before reads 0 = 0 := by
  simp [rows_before]

theorem rows_before_succ (aln : bam1_t) (rest : List bam1_t) (k : Nat) :
    rows_before (aln :: rest) (k + 1) =
      (if has_calls aln then 1 else 0) + rows_before rest k := by
  by_cases h : has_calls aln = true
  · simp [rows_before, List.filter_cons, h, Nat.add_comm]
  · simp [rows_before, List.filter_cons, h]

/-- A sequence of reads handed to `extract_methylation` in order, when every access stays
inside its array: the calls all return, the panel is unchanged, `read_count` grows by the
number of reads with both tags, and the names of these reads stand in the rows from the
old `read_count` on, in the order of processing. -/
theorem scan_region_rows (header : bam_hdr_t) (reads : List bam1_t) (st : State)
    (hcap : st.cpg_sites.length ≤ MAX_CPG)
    (hok : ∀ aln ∈ reads, accesses_in_range st.cpg_sites header aln = true)
    (hrows : ∀ k : Nat, k < reads.length → st.read_count + rows_before reads k < MAX_READS) :
    ∃ st', scan_region header (some st) reads = some st' ∧
      st'.cpg_sites = st.cpg_sites ∧
      st'.read_count = st.read_count + (reads.filter has_calls).length ∧
      ∀ (k : Nat) (aln : bam1_t), (reads.filter has_calls)[k]? = some aln →
        st'.read_names (st.read_count + k) = aln.qname := by
  induction reads generalizing st with
  | nil =>
    refine ⟨st, rfl, rfl, by simp, ?_⟩
    intro k aln h
    simp at h
  | cons a rest ih =>
    have hstep : scan_region header (some st) (a :: rest) =
        scan_region header (extract_methylation st a header) rest := rfl
    have hrow : st.read_count < MAX_READS := by
      have := hrows 0 (by simp)
      rw [rows_before_zero] at this
      omega
    have hoka := hok a (List.mem_cons_self _ _)
    have hname := accesses_in_range_name _ _ _ hoka
    by_cases hc : has_calls a = true
    · obtain ⟨mm, ml, hmm, hml⟩ := has_calls_true a hc
      obtain ⟨c, hchrom, hrange⟩ := accesses_in_range_tagged _ _ _ mm ml hmm hml hoka
      obtain ⟨st1, hst1, hsites1, hcount1, hnames1, _, _, _⟩ :=
        extract_methylation_tagged st a header mm ml c hmm hml hchrom hrow hname hcap hrange
      obtain ⟨st', hst', hsites, hcount, hnames⟩ := ih st1 (by rw [hsites1]; exact hcap)
        (fun aln haln => by rw [hsites1]; exact hok aln (List.mem_cons_of_mem _ haln))
        (fun k hk => by
          have := hrows (k + 1) (by simpa using hk)
          rw [rows_before_succ, if_pos hc] at this
          omega)
      obtain ⟨_, _, hkeep⟩ := scan_region_frame header rest st1 st' hst'
      refine ⟨st', by rw [hstep, hst1, hst'], hsites.trans hsites1, ?_, ?_⟩
      · rw [hcount, hcount1, List.filter_cons, if_pos hc, List.length_cons]
        omega
      · intro k aln hk
        rw [List.filter_cons, if_pos hc] at hk
        cases k with
        | zero =>
          simp only [List.getElem?_cons_zero, Option.some.injEq] at hk
          subst hk
          rw [Nat.add_zero, (hkeep st.read_count (by omega)).1, hnames1, if_pos rfl]
        | succ k' =>
          simp only [List.getElem?_cons_succ] at hk
          have := hnames k' aln hk
          rw [hcount1] at this
          rw [← this]
          congr 1
          omega
    · have hc' : has_calls a = false := by simpa using hc
      have hst1 := extract_methylation_untagged st a header (has_calls_false a hc') hrow hname
      obtain ⟨st', hst', hsites, hcount, hnames⟩ :=
        ih { st with read_names := fun i => if i = st.read_count then a.qname else st.read_names i }
          hcap (fun aln haln => hok aln (List.mem_cons_of_mem _ haln))
          (fun k hk => by
            have := hrows (k + 1) (by simpa using hk)
            rw [rows_before_succ, if_neg hc] at this
            simpa using this)
      refine ⟨st', by rw [hstep, hst1, hst'], hsites, ?_, ?_⟩
      · rw [hcount, List.filter_cons, if_neg hc]
      · intro k aln hk
        rw [List.filter_cons, if_neg hc] at hk
        exact hnames k aln hk

theorem scan_region_append (header : bam_hdr_t) (acc : Option State) (l₁ l₂ : List bam1_t) :
    scan_region header acc (l₁ ++ l₂) = scan_region header (scan_region header acc l₁) l₂ := by
  simp [scan_region, List.foldl_append]

/-- The scan of `main` hands the reads of `scan_order` to `extract_methylation`. -/
theorem scan_sites_eq_scan_region (query : String → Int → Int → Option (List bam1_t))
    (header : bam_hdr_t) (st : State) :
    scan_sites query header st =
      scan_region header (some st) (scan_order query st.cpg_sites) := by
  have hgen : ∀ (sites : List CpGSite) (acc : Option State),
      sites.foldl
          (fun acc site =>
            match query site.chrom site.pos site.pos with
            | none => acc
            | some reads => scan_region header acc reads) acc =
        scan_region header acc (scan_order query sites) := by
    intro sites
    induction sites with
    | nil => intro acc; rfl
    | cons site rest ih =>
      intro acc
      have hso : scan_order query (site :: rest) =
          (query site.chrom site.pos site.pos).getD [] ++ scan_order query rest := by
        simp [scan_order, List.flatMap_cons]
      rw [List.foldl_cons, ih, hso, scan_region_append]
      cases query site.chrom site.pos site.pos with
      | none => rfl
      | some reads => rfl
  exact hgen st.cpg_sites (some st)

/-! ## C14 : rows in encounter order -/

/-- C14. For every sequence of reads handed to `extract_methylation` in order, starting
from `read_count = 0`, when every access stays inside its array: the calls all return,
afterwards `read_count` equals the number of reads of the sequence that carry both tags,
and `read_names[k]` for `k < read_count` is the name of the `k`-th such read in processing
order, a read that occurs several times in the sequence being counted each time; the scan
of `main` is such a sequence, the reads of the region queries site after site. -/
theorem rows_in_encounter_order (header : bam_hdr_t) (reads : List bam1_t) (st : State)
    (hstart : st.read_count = 0)
    (hcap : st.cpg_sites.length ≤ MAX_CPG)
    (hok : ∀ aln ∈ reads, accesses_in_range st.cpg_sites header aln = true)
    (hrows : ∀ k : Nat, k < reads.length → rows_before reads k < MAX_READS) :
    ∃ st', scan_region header (some st) reads = some st' ∧
      st'.read_count = (reads.filter has_calls).length ∧
      (∀ (k : Nat) (aln : bam1_t), (reads.filter has_calls)[k]? = some aln →
        st'.read_names k = aln.qname) ∧
      ∀ query : String → Int → Int → Option (List bam1_t),
        scan_order query st.cpg_sites = reads → scan_sites query header st = some st' := by
  obtain ⟨st', hst', _, hcount, hnames⟩ := scan_region_rows header reads st hcap hok
    (fun k hk => by rw [hstart, Nat.zero_add]; exact hrows k hk)
  refine ⟨st', hst', by rw [hcount, hstart, Nat.zero_add], ?_, ?_⟩
  · intro k aln hk
    have := hnames k aln hk
    rwa [hstart, Nat.zero_add] at this
  · intro query hq
    rw [scan_sites_eq_scan_region, hq, hst']

/-- C14 at `example_reads` on `example_state`: two of the three reads carry both tags,
and they are the same read. -/
theorem rows_in_encounter_order_witness :
    (example_state.read_count = 0 ∧ example_state.cpg_sites.length ≤ MAX_CPG ∧
      (∀ aln ∈ example_reads,
        accesses_in_range example_state.cpg_sites example_header aln = true) ∧
      ∀ k : Nat, k < example_reads.length → rows_before example_reads k < MAX_READS) ∧
    ∃ st', scan_region example_header (some example_state) example_reads = some st' ∧
      st'.read_count = (example_reads.filter has_calls).length ∧
      (∀ (k : Nat) (aln : bam1_t), (example_reads.filter has_calls)[k]? = some aln →
        st'.read_names k = aln.qname) ∧
      ∀ query : String → Int → Int → Option (List bam1_t),
        scan_order query example_state.cpg_sites = example_reads →
        scan_sites query example_header example_state = some st' :=
  ⟨⟨rfl, by decide, by decide, by decide⟩,
    rows_in_encounter_order example_header example_reads example_state rfl (by decide)
      (by decide) (by decide)⟩

/-! ## The loop of `load_cpg_sites` -/

theorem takeWhile_append_stop {α : Type} (p : α → Bool) (l r : List α) (b : α)
    (hl : ∀ a ∈ l, p a = true) (hb : p b = false) :
    (l ++ b :: r).takeWhile p = l ∧ (l ++ b :: r).dropWhile p = b :: r := by
  induction l with
  | nil => simp [List.takeWhile_cons, List.dropWhile_cons, hb]
  | cons a as ih =>
    have ha := hl a (List.mem_cons_self _ _)
    have := ih (fun x hx => hl x (List.mem_cons_of_mem _ hx))
    simp [List.takeWhile_cons, List.dropWhile_cons, ha, this.1, this.2]

theorem dropWhile_head_false {α : Type} (p : α → Bool) (a : α) (l : List α)
    (h : p a = false) : (a :: l).dropWhile p = a :: l := by
  simp [List.dropWhile_cons, h]

theorem isdigit_not_isspace (ch : Char) (h : isdigit ch = true) : isspace ch = false := by
  simp only [isdigit, Bool.and_eq_true, decide_eq_true_eq] at h
  simp only [isspace, Bool.or_eq_false_iff, decide_eq_false_iff_not, Bool.and_eq_false_iff]
  omega

theorem isdigit_not_sign (ch : Char) (h : isdigit ch = true) : ch ≠ '-' ∧ ch ≠ '+' := by
  simp only [isdigit, Bool.and_eq_true, decide_eq_true_eq] at h
  constructor
  · rintro rfl
    revert h
    decide
  · rintro rfl
    revert h
    decide

/-- The conversion `%d` on a run of digits followed by a newline. -/
theorem scan_int_digits (digits next : List Char) (hne : digits ≠ [])
    (hd : ∀ ch ∈ digits, isdigit ch = true) :
    scan_int (digits ++ Char.ofNat 10 :: next) =
      some ((decimal_value digits : Int), Char.ofNat 10 :: next) := by
  obtain ⟨d, ds, rfl⟩ := List.exists_cons_of_ne_nil hne
  have hdd := hd d (List.mem_cons_self _ _)
  have hnl : isdigit (Char.ofNat 10) = false := by decide
  have hrun := takeWhile_append_stop isdigit (d :: ds) next (Char.ofNat 10) hd hnl
  have hsp : ((d :: ds) ++ Char.ofNat 10 :: next).dropWhile isspace =
      d :: (ds ++ Char.ofNat 10 :: next) :=
    dropWhile_head_false isspace d _ (isdigit_not_isspace d hdd)
  have hdig : scan_digits (d :: (ds ++ Char.ofNat 10 :: next)) =
      some (decimal_value (d :: ds), Char.ofNat 10 :: next) := by
    have h1 : d :: (ds ++ Char.ofNat 10 :: next) = (d :: ds) ++ Char.ofNat 10 :: next := rfl
    rw [h1, scan_digits, hrun.1, hrun.2]
    simp
  simp only [scan_int, hsp, (isdigit_not_sign d hdd).1, (isdigit_not_sign d hdd).2, if_false,
    hdig, Option.map_some']

/-- One call of `fscanf` on a well-formed line: both items are stored, and the input left
is what follows the line, without its leading white space. -/
theorem fscanf_site_line (line : PanelLine) (next : List Char)
    (hwf : line.well_formed = true) :
    fscanf_site (line.text ++ next) =
      ScanResult.assigned line.chrom (decimal_value line.digits : Int)
        (next.dropWhile isspace) := by
  simp only [PanelLine.well_formed, Bool.and_eq_true, bne_iff_ne, ne_eq, decide_eq_true_eq,
    List.all_eq_true, Bool.not_eq_true'] at hwf
  obtain ⟨⟨⟨⟨⟨hcne, hclen⟩, hchars⟩, hdne⟩, hdig⟩, _⟩ := hwf
  have htext : line.text ++ next =
      line.chrom ++ ':' :: (line.digits ++ Char.ofNat 10 :: next) := by
    simp [PanelLine.text]
  have hcolon : (fun ch : Char => ch != ':') ':' = false := by decide
  have hrun := takeWhile_append_stop (fun ch : Char => ch != ':') line.chrom
    (line.digits ++ Char.ofNat 10 :: next) ':'
    (fun a ha => by simpa using (hchars a ha).1) hcolon
  have htake : ((line.text ++ next).takeWhile fun ch => ch != ':').take 99 = line.chrom := by
    rw [htext, hrun.1, List.take_of_length_le hclen]
  have hnl : isspace (Char.ofNat 10) = true := by decide
  simp only [fscanf_site, htake, hcne, if_false]
  rw [htext, List.drop_left]
  simp only [if_true, scan_int_digits line.digits next hdne hdig]
  simp [List.dropWhile_cons, hnl]

theorem panel_text_cons (line : PanelLine) (rest : List PanelLine) :
    panel_text (line :: rest) = line.text ++ panel_text rest := by
  simp [panel_text, List.flatMap_cons]

/-- The text of well-formed lines, followed by text without leading white space, has no
leading white space. -/
theorem panel_text_dropWhile (lines : List PanelLine) (tail : List Char)
    (hwf : ∀ line ∈ lines, line.well_formed = true)
    (htail : tail.dropWhile isspace = tail) :
    (panel_text lines ++ tail).dropWhile isspace = panel_text lines ++ tail := by
  cases lines with
  | nil => simpa [panel_text] using htail
  | cons line rest =>
    have h := hwf line (List.mem_cons_self _ _)
    simp only [PanelLine.well_formed, Bool.and_eq_true, bne_iff_ne, ne_eq, decide_eq_true_eq,
      List.all_eq_true, Bool.not_eq_true'] at h
    obtain ⟨⟨⟨⟨⟨hcne, _⟩, hchars⟩, _⟩, _⟩, _⟩ := h
    obtain ⟨c, cs, hc⟩ := List.exists_cons_of_ne_nil hcne
    have hsp : isspace c = false := (hchars c (by rw [hc]; exact List.mem_cons_self _ _)).2
    rw [panel_text_cons]
    simp only [PanelLine.text, hc, List.cons_append]
    exact dropWhile_head_false isspace c _ hsp

/-- The loop on well-formed lines followed by text at which `fscanf` fails: the sites of
the lines are appended to the panel and the function returns. -/
theorem load_loop_lines (lines : List PanelLine) (tail : List Char) (stored : Bool)
    (fuel : Nat) (st : State)
    (hwf : ∀ line ∈ lines, line.well_formed = true)
    (htail : tail.dropWhile isspace = tail)
    (hfail : fscanf_site tail = ScanResult.failed stored)
    (hfuel : lines.length < fuel)
    (hcap : st.cpg_sites.length + lines.length ≤ MAX_CPG)
    (hcap' : stored = true → st.cpg_sites.length + lines.length < MAX_CPG) :
    load_loop fuel (panel_text lines ++ tail) st =
      LoadResult.loaded { st with cpg_sites := st.cpg_sites ++ lines.map PanelLine.site } := by
  induction lines generalizing fuel st with
  | nil =>
    obtain ⟨f, rfl⟩ : ∃ f, fuel = f + 1 := ⟨fuel - 1, by simp at hfuel; omega⟩
    have hin : panel_text [] ++ tail = tail := by simp [panel_text]
    rw [hin, load_loop, hfail]
    have hno : ¬ (stored = true ∧ MAX_CPG ≤ st.cpg_count) := by
      rintro ⟨h1, h2⟩
      have := hcap' h1
      simp only [State.cpg_count, List.length_nil, Nat.add_zero] at h2 this
      omega
    simp [hno]
  | cons line rest ih =>
    obtain ⟨f, rfl⟩ : ∃ f, fuel = f + 1 := ⟨fuel - 1, by simp at hfuel; omega⟩
    have hline := hwf line (List.mem_cons_self _ _)
    have hrest : ∀ l ∈ rest, l.well_formed = true :=
      fun l hl => hwf l (List.mem_cons_of_mem _ hl)
    have hin : panel_text (line :: rest) ++ tail = line.text ++ (panel_text rest ++ tail) := by
      rw [panel_text_cons, List.append_assoc]
    have hval : decimal_value line.digits ≤ 2147483647 := by
      simp only [PanelLine.well_formed, Bool.and_eq_true, decide_eq_true_eq] at hline
      exact hline.2
    simp only [List.length_cons] at hfuel hcap hcap'
    have hguard : st.cpg_count < MAX_CPG ∧ (-2147483648 : Int) ≤ (decimal_value line.digits : Int) ∧
        (decimal_value line.digits : Int) ≤ 2147483647 := by
      refine ⟨?_, ?_, ?_⟩
      · simp only [State.cpg_count]; omega
      · omega
      · omega
    rw [hin, load_loop, fscanf_site_line line _ hline, panel_text_dropWhile rest tail hrest htail]
    simp only [hguard, and_self, if_true]
    rw [ih f _ hrest (by omega) (by simp only [List.length_append, List.length_singleton]; omega)
      (fun h => by
        have := hcap' h
        simp only [List.length_append, List.length_singleton]
        omega)]
    simp [PanelLine.site, List.append_assoc]

theorem scan_digits_length (input : List Char) (n : Nat) (rest : List Char)
    (h : scan_digits input = some (n, rest)) : rest.length ≤ input.length := by
  unfold scan_digits at h
  split_ifs at h
  simp only [Option.some.injEq, Prod.mk.injEq] at h
  rw [← h.2]
  exact (List.dropWhile_suffix isdigit).length_le

theorem scan_int_length (input : List Char) (v : Int) (rest : List Char)
    (h : scan_int input = some (v, rest)) : rest.length ≤ input.length := by
  unfold scan_int at h
  have hsuf := (List.dropWhile_suffix (l := input) isspace).length_le
  cases hd : input.dropWhile isspace with
  | nil => rw [hd] at h; simp at h
  | cons ch t =>
    rw [hd] at h hsuf
    simp only [List.length_cons] at hsuf
    simp only at h
    by_cases h1 : ch = '-'
    · rw [if_pos h1] at h
      cases hr : scan_digits t with
      | none => rw [hr] at h; simp at h
      | some pr =>
        rw [hr] at h
        simp only [Option.map_some', Option.some.injEq, Prod.mk.injEq] at h
        have := scan_digits_length t pr.1 pr.2 hr
        rw [← h.2]
        omega
    · rw [if_neg h1] at h
      by_cases h2 : ch = '+'
      · rw [if_pos h2] at h
        cases hr : scan_digits t with
        | none => rw [hr] at h; simp at h
        | some pr =>
          rw [hr] at h
          simp only [Option.map_some', Option.some.injEq, Prod.mk.injEq] at h
          have := scan_digits_length t pr.1 pr.2 hr
          rw [← h.2]
          omega
      · rw [if_neg h2] at h
        cases hr : scan_digits (ch :: t) with
        | none => rw [hr] at h; simp at h
        | some pr =>
          rw [hr] at h
          simp only [Option.map_some', Option.some.injEq, Prod.mk.injEq] at h
          have := scan_digits_length (ch :: t) pr.1 pr.2 hr
          simp only [List.length_cons] at this
          rw [← h.2]
          omega

/-- A call of `fscanf` that stores both items consumes input. -/
theorem fscanf_site_consumes (input chrom : List Char) (pos : Int) (rest : List Char)
    (h : fscanf_site input = ScanResult.assigned chrom pos rest) :
    rest.length < input.length := by
  unfold fscanf_site at h
  simp only at h
  split_ifs at h with hc
  cases hdrop : input.drop ((input.takeWhile fun ch => ch != ':').take 99).length with
  | nil => rw [hdrop] at h; simp at h
  | cons ch after =>
    rw [hdrop] at h
    have hlen : after.length < input.length := by
      have := congrArg List.length hdrop
      simp only [List.length_drop, List.length_cons] at this
      omega
    simp only at h
    split_ifs at h with hcolon
    cases hs : scan_int after with
    | none => rw [hs] at h; simp at h
    | some pr =>
      obtain ⟨v, r⟩ := pr
      rw [hs] at h
      simp only [ScanResult.assigned.injEq] at h
      have h1 := scan_int_length after v r hs
      have h2 := (List.dropWhile_suffix (l := r) isspace).length_le
      rw [← h.2.2]
      omega

/-- The loop never runs out of iterations when their bound exceeds the length of the
input, and it never ends the program. -/
theorem load_loop_ends (fuel : Nat) (input : List Char) (st : State)
    (hfuel : input.length < fuel) :
    load_loop fuel input st ≠ LoadResult.out_of_fuel ∧
      (load_loop fuel input st).is_exit = false := by
  induction fuel generalizing input st with
  | zero => omega
  | succ f ih =>
    rw [load_loop]
    cases hscan : fscanf_site input with
    | failed stored =>
      simp only
      split_ifs <;> simp [LoadResult.is_exit]
    | assigned chrom pos rest =>
      simp only
      split_ifs
      · have := fscanf_site_consumes input chrom pos rest hscan
        exact ih rest _ (by omega)
      · simp [LoadResult.is_exit]

/-- A call of `fscanf` on a chromosome and a colon followed by text that does not start
with an integer: the chromosome is stored and the call fails. -/
theorem fscanf_site_bad_position (chrom junk : List Char)
    (hne : chrom ≠ []) (hlen : chrom.length ≤ 99) (hchars : ∀ ch ∈ chrom, ch ≠ ':')
    (hjunk : scan_int junk = none) :
    fscanf_site (chrom ++ ':' :: junk) = ScanResult.failed true := by
  have hcolon : (fun ch : Char => ch != ':') ':' = false := by decide
  have hrun := takeWhile_append_stop (fun ch : Char => ch != ':') chrom junk ':'
    (fun a ha => by simpa using hchars a ha) hcolon
  have htake : ((chrom ++ ':' :: junk).takeWhile fun ch => ch != ':').take 99 = chrom := by
    rw [hrun.1, List.take_of_length_le hlen]
  simp only [fscanf_site, htake, hne, if_false]
  rw [List.drop_left]
  simp only [if_true, hjunk]

/-! ## C15 : a malformed line in the panel source -/

/-- C15, as the claim states it, at two panel sources with a malformed second line: for
`chr1:100 / chr2:abc / chr3:5` the function does not fail, it returns the panel
`[chr1:100]` of the line before the bad one; for `chr1:100 / chr2 200 / chr3:5` it does
not fail either and returns a panel whose second site has the chromosome
`chr2 200\nchr3`. -/
theorem load_cpg_sites_bad_line_no_error :
    (load_cpg_sites (some example_bad_position) State.init).is_exit = false ∧
    (load_cpg_sites (some example_bad_position) State.init).panel =
      some [{ chrom := "chr1", pos := 100 }] ∧
    (load_cpg_sites (some example_no_colon) State.init).is_exit = false ∧
    (load_cpg_sites (some example_no_colon) State.init).panel =
      some [{ chrom := "chr1", pos := 100 }, { chrom := "chr2 200\nchr3", pos := 5 }] := by
  decide

/-- C15, amended. For every panel source made of well-formed lines followed by a line
whose position is not a number (a chromosome, a colon, and text at which `%d` fails),
with room in `cpg_sites` for the lines and one more chromosome: `load_cpg_sites` returns
the sites of the lines before the bad one, in file order, as the panel, whatever follows
the bad line; and for no content of the file does it end with an error. -/
theorem load_cpg_sites_stops_at_bad_position (lines : List PanelLine)
    (chrom junk : List Char) (st : State)
    (hwf : ∀ line ∈ lines, line.well_formed = true)
    (hne : chrom ≠ []) (hlen : chrom.length ≤ 99)
    (hchars : ∀ ch ∈ chrom, ch ≠ ':' ∧ isspace ch = false)
    (hjunk : scan_int junk = none)
    (hcap : st.cpg_sites.length + lines.length < MAX_CPG) :
    load_cpg_sites (some (panel_text lines ++ (chrom ++ ':' :: junk))) st =
      LoadResult.loaded { st with cpg_sites := st.cpg_sites ++ lines.map PanelLine.site } ∧
    ∀ (text : List Char) (st' : State),
      (load_cpg_sites (some text) st').is_exit = false ∧
        load_cpg_sites (some text) st' ≠ LoadResult.out_of_fuel := by
  constructor
  · obtain ⟨c, cs, rfl⟩ := List.exists_cons_of_ne_nil hne
    have htail : ((c :: cs) ++ ':' :: junk).dropWhile isspace = (c :: cs) ++ ':' :: junk :=
      dropWhile_head_false isspace c _ (hchars c (List.mem_cons_self _ _)).2
    have hfail := fscanf_site_bad_position (c :: cs) junk hne hlen
      (fun ch hch => (hchars ch hch).1) hjunk
    have hlenle : lines.length ≤ (panel_text lines ++ ((c :: cs) ++ ':' :: junk)).length := by
      have hpt : ∀ ls : List PanelLine, ls.length ≤ (panel_text ls).length := by
        intro ls
        induction ls with
        | nil => simp
        | cons l rest ih =>
          rw [panel_text_cons]
          simp only [List.length_cons, List.length_append, PanelLine.text]
          omega
      have := hpt lines
      simp only [List.length_append]
      omega
    exact load_loop_lines lines _ true _ st hwf htail hfail (by omega) (by omega) (fun _ => hcap)
  · intro text st'
    have := load_loop_ends (text.length + 1) text st' (by omega)
    exact ⟨this.2, this.1⟩

/-- C15, amended, at `example_bad_position`: the line `chr1:100`, then `chr2:abc`. -/
theorem load_cpg_sites_stops_at_bad_position_witness :
    ((∀ line ∈ example_lines, line.well_formed = true) ∧
      "chr2".toList ≠ [] ∧ "chr2".toList.length ≤ 99 ∧
      (∀ ch ∈ "chr2".toList, ch ≠ ':' ∧ isspace ch = false) ∧
      scan_int "abc\nchr3:5\n".toList = none ∧
      State.init.cpg_sites.length + example_lines.length < MAX_CPG) ∧
    load_cpg_sites
        (some (panel_text example_lines ++ ("chr2".toList ++ ':' :: "abc\nchr3:5\n".toList)))
        State.init =
      LoadResult.loaded
        { State.init with
          cpg_sites := State.init.cpg_sites ++ example_lines.map PanelLine.site } ∧
    ∀ (text : List Char) (st' : State),
      (load_cpg_sites (some text) st').is_exit = false ∧
        load_cpg_sites (some text) st' ≠ LoadResult.out_of_fuel :=
  ⟨⟨by decide, by decide, by decide, by decide, by decide, by decide⟩,
    load_cpg_sites_stops_at_bad_position example_lines "chr2".toList "abc\nchr3:5\n".toList
      State.init (by decide) (by decide) (by decide) (by decide) (by decide) (by decide)⟩

/-! ## C16 : the capacities of the arrays -/

/-- A call made when no row is left writes outside `read_names`. -/
theorem extract_methylation_row_overflow (st : State) (aln : bam1_t) (header : bam_hdr_t)
    (h : MAX_READS ≤ st.read_count) : extract_methylation st aln header = none := by
  unfold extract_methylation
  rw [if_neg (by omega)]

theorem rows_before_le (reads : List bam1_t) (k : Nat) : rows_before reads k ≤ k := by
  unfold rows_before
  exact Nat.le_trans (List.length_filter_le _ _) (List.length_take_le _ _)

/-- A sequence of reads that all carry both tags, no longer than the rows left: every
call returns and `read_count` grows by the length of the sequence. -/
theorem scan_region_all_tagged (header : bam_hdr_t) (reads : List bam1_t) (st : State)
    (hcap : st.cpg_sites.length ≤ MAX_CPG)
    (hok : ∀ aln ∈ reads, accesses_in_range st.cpg_sites header aln = true)
    (hall : ∀ aln ∈ reads, has_calls aln = true)
    (hn : st.read_count + reads.length ≤ MAX_READS) :
    ∃ st', scan_region header (some st) reads = some st' ∧
      st'.read_count = st.read_count + reads.length := by
  obtain ⟨st', hst', _, hcount, _⟩ := scan_region_rows header reads st hcap hok
    (fun k hk => by
      have := rows_before_le reads k
      omega)
  refine ⟨st', hst', ?_⟩
  rw [hcount, List.filter_eq_self.mpr hall]

/-- The loop on more well-formed lines than `cpg_sites` has entries left: a store goes
beyond the array. -/
theorem load_loop_overflow (lines : List PanelLine) (tail : List Char) (fuel : Nat)
    (st : State)
    (hwf : ∀ line ∈ lines, line.well_formed = true)
    (htail : tail.dropWhile isspace = tail)
    (hfuel : lines.length < fuel)
    (hst : st.cpg_sites.length ≤ MAX_CPG)
    (hover : MAX_CPG < st.cpg_sites.length + lines.length) :
    load_loop fuel (panel_text lines ++ tail) st = LoadResult.undefined := by
  induction lines generalizing fuel st with
  | nil => simp only [List.length_nil] at hover; omega
  | cons line rest ih =>
    obtain ⟨f, rfl⟩ : ∃ f, fuel = f + 1 := ⟨fuel - 1, by simp at hfuel; omega⟩
    have hline := hwf line (List.mem_cons_self _ _)
    have hrest : ∀ l ∈ rest, l.well_formed = true :=
      fun l hl => hwf l (List.mem_cons_of_mem _ hl)
    have hin : panel_text (line :: rest) ++ tail = line.text ++ (panel_text rest ++ tail) := by
      rw [panel_text_cons, List.append_assoc]
    have hval : decimal_value line.digits ≤ 2147483647 := by
      simp only [PanelLine.well_formed, Bool.and_eq_true, decide_eq_true_eq] at hline
      exact hline.2
    simp only [List.length_cons] at hfuel hover
    rw [hin, load_loop, fscanf_site_line line _ hline, panel_text_dropWhile rest tail hrest htail]
    simp only
    by_cases hfull : st.cpg_sites.length < MAX_CPG
    · have hguard : st.cpg_count < MAX_CPG ∧
          (-2147483648 : Int) ≤ (decimal_value line.digits : Int) ∧
          (decimal_value line.digits : Int) ≤ 2147483647 := by
        refine ⟨hfull, ?_, ?_⟩ <;> omega
      rw [if_pos hguard]
      exact ih f _ hrest (by omega)
        (by simp only [List.length_append, List.length_singleton]; omega)
        (by simp only [List.length_append, List.length_singleton]; omega)
    · rw [if_neg]
      rintro ⟨h, _⟩
      exact hfull h

theorem panel_text_length (lines : List PanelLine) :
    lines.length ≤ (panel_text lines).length := by
  induction lines with
  | nil => simp
  | cons l rest ih =>
    rw [panel_text_cons]
    simp only [List.length_cons, List.length_append, PanelLine.text]
    omega

/-- C16, as the claim states it, at 1001 reads and at 1001 panel lines: the first 1000
copies of `example_read` are stored in rows 0 to 999, the call for the next one writes
`read_names[1000]`, outside the array; and loading 1001 well-formed lines stores beyond
`cpg_sites`. -/
theorem capacity_exceeded :
    (∃ st', scan_region example_header (some example_state)
        (List.replicate MAX_READS example_read) = some st' ∧ st'.read_count = 1000) ∧
    scan_region example_header (some example_state) example_too_many_reads = none ∧
    load_cpg_sites (some (panel_text example_too_many_lines)) State.init =
      LoadResult.undefined := by
  have hfirst := scan_region_all_tagged example_header (List.replicate MAX_READS example_read)
    example_state (by decide)
    (fun aln h => by rw [List.eq_of_mem_replicate h]; decide)
    (fun aln h => by rw [List.eq_of_mem_replicate h]; decide)
    (by rw [List.length_replicate]; exact Nat.le_of_eq (Nat.zero_add _))
  obtain ⟨st', hst', hcount⟩ := hfirst
  have hcount' : st'.read_count = 1000 := by
    rw [hcount, List.length_replicate]
    exact Nat.zero_add _
  refine ⟨⟨st', hst', hcount'⟩, ?_, ?_⟩
  · have hsplit : example_too_many_reads =
        List.replicate MAX_READS example_read ++ [example_read] :=
      List.replicate_succ' MAX_READS example_read
    have hlast : scan_region example_header (some st') [example_read] =
        extract_methylation st' example_read example_header := rfl
    rw [hsplit, scan_region_append, hst', hlast]
    exact extract_methylation_row_overflow st' _ _ (by rw [hcount']; decide)
  · have hwf : ∀ line ∈ example_too_many_lines, line.well_formed = true := by
      intro line h
      rw [List.eq_of_mem_replicate h]
      decide
    have hover : MAX_CPG < State.init.cpg_sites.length + example_too_many_lines.length := by
      rw [example_too_many_lines, List.length_replicate]
      exact Nat.lt_of_lt_of_le (Nat.lt_succ_self MAX_CPG) (Nat.le_of_eq (Nat.zero_add _).symm)
    have h := load_loop_overflow example_too_many_lines [] _ State.init hwf rfl
      (Nat.lt_succ_of_le (panel_text_length example_too_many_lines))
      (by decide) hover
    rw [List.append_nil] at h
    rw [load_cpg_sites, h]

/-- C16, amended. The numbers of rows and of sites are bounded by the capacities
`MAX_READS = 1000` and `MAX_CPG = 1000` of the arrays: for every `n ≤ MAX_READS`,
processing `n` reads that carry modification calls from `read_count = 0` (their other
accesses staying in range) stores `n` rows with every call returning, that is with every
write to `read_names[read_count]` and `likelihood_matrix[read_count][cpg_index]` inside
its array; and loading at most `MAX_CPG` well-formed lines returns with their sites, every
write to `cpg_sites[cpg_count]` being inside the array. -/
theorem capacity_is_bounded (header : bam_hdr_t) (reads : List bam1_t) (st : State)
    (lines : List PanelLine)
    (hstart : st.read_count = 0)
    (hcap : st.cpg_sites.length ≤ MAX_CPG)
    (hok : ∀ aln ∈ reads, accesses_in_range st.cpg_sites header aln = true)
    (hall : ∀ aln ∈ reads, has_calls aln = true)
    (hn : reads.length ≤ MAX_READS)
    (hwf : ∀ line ∈ lines, line.well_formed = true)
    (hlines : lines.length ≤ MAX_CPG) :
    (∃ st', scan_region header (some st) reads = some st' ∧ st'.read_count = reads.length) ∧
    load_cpg_sites (some (panel_text lines)) State.init =
      LoadResult.loaded { State.init with cpg_sites := lines.map PanelLine.site } := by
  constructor
  · obtain ⟨st', hst', hcount⟩ := scan_region_all_tagged header reads st hcap hok hall
      (by omega)
    exact ⟨st', hst', by rw [hcount, hstart, Nat.zero_add]⟩
  · have hfail : fscanf_site [] = ScanResult.failed false := rfl
    have h := load_loop_lines lines [] false ((panel_text lines).length + 1) State.init hwf rfl
      hfail (Nat.lt_succ_of_le (panel_text_length lines))
      (by simpa [State.init] using hlines) (fun h => by cases h)
    rw [List.append_nil] at h
    rw [load_cpg_sites, h]
    simp [State.init]

/-- C16, amended, at the two reads `example_read`, `example_deletion_read` and at
`example_lines`. -/
theorem capacity_is_bounded_witness :
    (example_state.read_count = 0 ∧ example_state.cpg_sites.length ≤ MAX_CPG ∧
      (∀ aln ∈ [example_read, example_deletion_read],
        accesses_in_range example_state.cpg_sites example_header aln = true) ∧
      (∀ aln ∈ [example_read, example_deletion_read], has_calls aln = true) ∧
      [example_read, example_deletion_read].length ≤ MAX_READS ∧
      (∀ line ∈ example_lines, line.well_formed = true) ∧
      example_lines.length ≤ MAX_CPG) ∧
    (∃ st', scan_region example_header (some example_state)
        [example_read, example_deletion_read] = some st' ∧
      st'.read_count = [example_read, example_deletion_read].length) ∧
    load_cpg_sites (some (panel_text example_lines)) State.init =
      LoadResult.loaded { State.init with cpg_sites := example_lines.map PanelLine.site } :=
  ⟨⟨rfl, by decide, by decide, by decide, by decide, by decide, by decide⟩,
    capacity_is_bounded example_header [example_read, example_deletion_read] example_state
      example_lines rfl (by decide) (by decide) (by decide) (by decide) (by decide)
      (by decide)⟩

/-! ## C17 : the base queried and the base stored -/

/-- C17, at the site `chr1:101` and two reads that start at the 0-based position 100.
The base queried for the site has the 0-based coordinate 100. The read `2M` covers it
with its base at offset 0, of likelihood 10, but the call stores 20, the likelihood of
the base at offset 1, in the column of the site. The read `1M` covers it too, and the
call stores nothing: the cell stays 0. -/
theorem queried_base_not_stored :
    queried_base { chrom := "chr1", pos := 101 } = 100 ∧
    (tested_pairs example_two_base_read.pos example_two_base_read.cigar =
      [(100, 0), (101, 1)]) ∧
    (extract_methylation example_single_site_state example_two_base_read example_header).map
        (fun st' => st'.likelihood_matrix 0 0) = some 20 ∧
    (tested_pairs example_one_base_read.pos example_one_base_read.cigar = [(100, 0)]) ∧
    (extract_methylation example_single_site_state example_one_base_read example_header).map
        (fun st' => st'.likelihood_matrix 0 0) = some 0 := by
  decide

end CreateCpgMatrix
